import Mathlib

/-!
Verification of the uclog binary log transport core against its
natural-language specification.

The development shallowly embeds the C sources:
- the byte ring buffer (`cb.c` : `cb_t`, `cb_read_avail`, `cb_write_avail`,
  `cb_read`, `cb_write`, `cb_peek_avail`, `cb_skip`, ...),
- the COBS frame codec (its translation unit is not part of the sources at
  hand, only its header and callers; it is modelled from the specification),
- the frame building paths `log_tx` and `log_tx_resume`,
- the CBOR item codec (`cbor.c` : `read_ext`, `read_any`, `cbor_get_any`,
  `write_mt_uint64`, `cbor_write_int64`, `cbor_as_int64`, ...),
- the crash-persistence path `log_valid` / `log_save` (`log.c`),
- the server RX dispatch branch for the blocking-receive port (`logserver.c`).

Machine integers are modelled as `Nat` (bytes are `Nat`s below 256, sizes are
`size_t`-like `Nat`s); buffers are modelled as functions `Nat → Nat` from byte
offsets to byte values, and byte sequences as `List Nat`.
-/

/-! ## Ring buffer (`cb.c`)

`cb_t` holds a backing store `b` of capacity `n` and the two indices.
The backing store pointer is modelled as the function `buf` giving the byte
at each offset of the backing array.
-/

structure Cb where
  n : Nat
  buf : Nat → Nat
  read : Nat
  write : Nat

/-- `cb_read_avail`:
`cb->read <= cb->write ? cb->write - cb->read : cb->n - cb->read + cb->write`. -/
def cb_read_avail (cb : Cb) : Nat :=
  if cb.read ≤ cb.write then cb.write - cb.read else cb.n - cb.read + cb.write

/-- `cb_write_avail`:
`(cb->read > cb->write ? cb->read - cb->write : cb->n - cb->write + cb->read) - 1`. -/
def cb_write_avail (cb : Cb) : Nat :=
  (if cb.read > cb.write then cb.read - cb.write
   else cb.n - cb.write + cb.read) - 1

/-- `cb_peek_avail`: contiguous readable bytes before the wrap. -/
def cb_peek_avail (cb : Cb) : Nat :=
  if cb.read ≤ cb.write then cb.write - cb.read else cb.n - cb.read

/-- Reading `k` bytes through the pointer returned by `cb_peek`
(`(uint8_t*) cb->b + cb->read`): the bytes at offsets
`read, read+1, ..., read+k-1`, without wrapping. -/
def cb_peekBytes (cb : Cb) (k : Nat) : List Nat :=
  (List.range k).map (fun i => cb.buf (cb.read + i))

/-- `cb_skip`: advance `read` by `n` with a single conditional wrap,
exactly as the source (`r = cb->read + n; if (r >= cb->n) r -= cb->n`). -/
def cb_skip (cb : Cb) (k : Nat) : Cb :=
  let r := cb.read + k
  let r := if r ≥ cb.n then r - cb.n else r
  { cb with read := r }

/-- `memmove(dst + off, src, src.length)` on a buffer modelled as a
function: offsets `off ≤ i < off + src.length` take bytes of `src`. -/
def memmoveBytes (b : Nat → Nat) (off : Nat) (src : List Nat) : Nat → Nat :=
  fun i => if off ≤ i ∧ i < off + src.length then src.getD (i - off) 0 else b i

/-- `cb_read`: copy `k` bytes out in (up to) two `memmove` chunks —
`n1 = min(cb->n - cb->read, k)` bytes from `read`, the remainder from
offset 0 — then advance `read` with a single conditional wrap. -/
def cb_read (cb : Cb) (k : Nat) : List Nat × Cb :=
  let n1 := min (cb.n - cb.read) k
  let out := (List.range n1).map (fun i => cb.buf (cb.read + i))
             ++ (List.range (k - n1)).map cb.buf
  let r := cb.read + k
  let r := if r ≥ cb.n then r - cb.n else r
  (out, { cb with read := r })

/-- `cb_write`: copy the data in with (up to) two `memmove` chunks —
`n1 = min(cb->n - cb->write, len)` bytes at `write`, the remainder at
offset 0 — then advance `write` with a single conditional wrap.
The function never checks `cb_write_avail`; that is the caller's policy. -/
def cb_write (cb : Cb) (data : List Nat) : Cb :=
  let n1 := min (cb.n - cb.write) data.length
  let b1 := memmoveBytes cb.buf cb.write (data.take n1)
  let b2 := if data.length > n1 then memmoveBytes b1 0 (data.drop n1) else b1
  let w := cb.write + data.length
  let w := if w ≥ cb.n then w - cb.n else w
  { cb with buf := b2, write := w }

/-- Both indices strictly below the capacity — the state-validity invariant
the specification requires at all times. -/
def CbValid (cb : Cb) : Prop := cb.read < cb.n ∧ cb.write < cb.n

/-- Index `read + i` reduced into `[0, n)` by a single conditional
subtraction (valid whenever `read < n` and `i < n`). -/
def wrapIdx (n r i : Nat) : Nat :=
  if r + i < n then r + i else r + i - n

/-- The queued (unread) bytes of the ring, in read order, wrap-aware. -/
def cb_content (cb : Cb) : List Nat :=
  (List.range (cb_read_avail cb)).map (fun i => cb.buf (wrapIdx cb.n cb.read i))

/-- C1: for every ring-buffer index state with `read < n` and `write < n`,
`cb_read_avail() + cb_write_avail() = n - 1`: the buffer is kept one slot
short of full, so the two counts always partition the other `n - 1` slots. -/
theorem cb_avail_sum (cb : Cb) (hr : cb.read < cb.n) (hw : cb.write < cb.n) :
    cb_read_avail cb + cb_write_avail cb = cb.n - 1 := by
  unfold cb_read_avail cb_write_avail
  split <;> split <;> omega

/-- Witness for `cb_avail_sum` at a concrete state: capacity 8,
`read = 6`, `write = 2` (a wrapped state). -/
theorem cb_avail_sum_witness :
    cb_read_avail ⟨8, fun _ => 0, 6, 2⟩ + cb_write_avail ⟨8, fun _ => 0, 6, 2⟩ = 7 :=
  cb_avail_sum ⟨8, fun _ => 0, 6, 2⟩ (by decide) (by decide)

/-! ## COBS frame codec

Modelled from the spec: the COBS translation unit itself is not among the
sources at hand (only `cobs.h` users such as `log.c` call `cobs_enc` /
`cobs_dec`), so the codec is modelled from the specification's description:
"every run of non-sentinel bytes is prefixed by a length byte giving the
distance to the next sentinel-or-end; the decoded output has the sentinels
restored", with runs capped at 254 bytes (length byte `0xFF` means a full
254-byte run with no implied sentinel).
-/

/-- Modelled from the spec: COBS encoder worker.  `acc` is the current run
of non-sentinel bytes, in reverse order, capped at 254 bytes. -/
def cobs_enc_go : List Nat → List Nat → List Nat
  | acc, [] => (acc.length + 1) :: acc.reverse
  | acc, b :: rest =>
    if b = 0 then ((acc.length + 1) :: acc.reverse) ++ cobs_enc_go [] rest
    else if acc.length = 253 then (255 :: (acc.reverse ++ [b])) ++ cobs_enc_go [] rest
    else cobs_enc_go (b :: acc) rest

/-- Modelled from the spec: `cobs_enc` — byte-stuff a payload so that it
contains no `0x00` byte. -/
def cobs_enc (l : List Nat) : List Nat := cobs_enc_go [] l

/-- Modelled from the spec: `cobs_dec` — undo the stuffing, `none` when the
length-byte chain is malformed. -/
def cobs_dec : List Nat → Option (List Nat)
  | [] => some []
  | c :: rest =>
    if c = 0 then none
    else if rest.length < c - 1 then none
    else
      let g := rest.take (c - 1)
      let r := rest.drop (c - 1)
      match r with
      | [] => some g
      | _ :: _ =>
        if c = 255 then (cobs_dec r).map (fun d => g ++ d)
        else (cobs_dec r).map (fun d => g ++ 0 :: d)
termination_by l => l.length
decreasing_by
  all_goals simp only [List.length_cons, List.length_drop]
  all_goals omega

theorem cobs_enc_go_ne_nil (l acc : List Nat) : cobs_enc_go acc l ≠ [] := by
  induction l generalizing acc with
  | nil => simp [cobs_enc_go]
  | cons b rest ih =>
    unfold cobs_enc_go
    split
    · simp
    · split
      · simp
      · exact ih _

theorem cobs_dec_chunk_nil (g : List Nat) (hg : g.length ≤ 253) :
    cobs_dec ((g.length + 1) :: g) = some g := by
  rw [cobs_dec]
  rw [if_neg (by omega), if_neg (by omega)]
  simp only [Nat.add_sub_cancel]
  rw [List.take_of_length_le (le_refl _), List.drop_of_length_le (le_refl _)]

theorem cobs_dec_chunk_cons (g t : List Nat) (hg : g.length ≤ 253) (ht : t ≠ []) :
    cobs_dec ((g.length + 1) :: (g ++ t)) = (cobs_dec t).map (fun d => g ++ 0 :: d) := by
  rw [cobs_dec]
  rw [if_neg (by omega), if_neg (by simp only [List.length_append]; omega)]
  simp only [Nat.add_sub_cancel]
  rw [List.take_left, List.drop_left]
  rcases t with _ | ⟨x, xs⟩
  · exact absurd rfl ht
  · have hne : g.length + 1 ≠ 255 := by omega
    simp [hne]

theorem cobs_dec_chunk_full (g t : List Nat) (hg : g.length = 254) (ht : t ≠ []) :
    cobs_dec (255 :: (g ++ t)) = (cobs_dec t).map (fun d => g ++ d) := by
  rw [cobs_dec]
  rw [if_neg (by omega), if_neg (by simp only [List.length_append]; omega)]
  have h254 : (255 : Nat) - 1 = g.length := by omega
  rw [h254, List.take_left, List.drop_left]
  rcases t with _ | ⟨x, xs⟩
  · exact absurd rfl ht
  · simp

theorem cobs_dec_enc_go (l : List Nat) (acc : List Nat) (hacc : acc.length ≤ 253) :
    cobs_dec (cobs_enc_go acc l) = some (acc.reverse ++ l) := by
  induction l generalizing acc with
  | nil =>
    unfold cobs_enc_go
    have hlr : acc.reverse.length = acc.length := List.length_reverse acc
    rw [show (acc.length + 1) = acc.reverse.length + 1 by omega]
    rw [cobs_dec_chunk_nil acc.reverse (by omega)]
    simp
  | cons b rest ih =>
    unfold cobs_enc_go
    have hlr : acc.reverse.length = acc.length := List.length_reverse acc
    have hne := cobs_enc_go_ne_nil rest ([] : List Nat)
    by_cases hb : b = 0
    · subst hb
      rw [if_pos rfl, List.cons_append]
      rw [show (acc.length + 1) = acc.reverse.length + 1 by omega]
      rw [cobs_dec_chunk_cons acc.reverse _ (by omega) hne]
      rw [ih ([] : List Nat) (by simp)]
      simp
    · rw [if_neg hb]
      by_cases h253 : acc.length = 253
      · rw [if_pos h253, List.cons_append]
        rw [cobs_dec_chunk_full (acc.reverse ++ [b]) _ (by simp [hlr]; omega) hne]
        rw [ih ([] : List Nat) (by simp)]
        simp
      · rw [if_neg h253]
        rw [ih (b :: acc) (by simp only [List.length_cons]; omega)]
        simp

/-- COBS round-trip: decoding an encoded payload restores it exactly. -/
theorem cobs_dec_enc (l : List Nat) : cobs_dec (cobs_enc l) = some l := by
  simpa using cobs_dec_enc_go l [] (by simp)

/-! ## Byte-buffer primitives shared by the frame builders -/

/-- Single byte store `b[i] = v`. -/
def setByte (b : Nat → Nat) (i v : Nat) : Nat → Nat :=
  fun j => if j = i then v else b j

/-- Read `len` bytes starting at offset `off`. -/
def readBytes (b : Nat → Nat) (off len : Nat) : List Nat :=
  (List.range len).map (fun i => b (off + i))

theorem setByte_eq (b : Nat → Nat) (i v : Nat) : setByte b i v i = v := by
  simp [setByte]

theorem setByte_ne (b : Nat → Nat) (i v j : Nat) (h : j ≠ i) : setByte b i v j = b j := by
  simp [setByte, h]

theorem memmoveBytes_out (b : Nat → Nat) (off : Nat) (l : List Nat) (i : Nat)
    (h : i < off ∨ off + l.length ≤ i) : memmoveBytes b off l i = b i := by
  unfold memmoveBytes
  rw [if_neg (by omega)]

theorem memmoveBytes_in (b : Nat → Nat) (off : Nat) (l : List Nat) (i : Nat)
    (h1 : off ≤ i) (h2 : i < off + l.length) :
    memmoveBytes b off l i = l.getD (i - off) 0 := by
  unfold memmoveBytes
  rw [if_pos (by omega)]

theorem map_getD_range (l : List Nat) :
    (List.range l.length).map (fun i => l.getD i 0) = l := by
  apply List.ext_getElem
  · simp
  · intro i h1 h2
    simp only [List.getElem_map, List.getElem_range]
    rw [List.getD_eq_getElem l 0 h2]

theorem readBytes_congr (b1 b2 : Nat → Nat) (off len : Nat)
    (h : ∀ i, i < len → b1 (off + i) = b2 (off + i)) :
    readBytes b1 off len = readBytes b2 off len := by
  unfold readBytes
  apply List.map_congr_left
  intro i hi
  exact h i (List.mem_range.mp hi)

theorem readBytes_memmove (b : Nat → Nat) (off : Nat) (l : List Nat) :
    readBytes (memmoveBytes b off l) off l.length = l := by
  unfold readBytes
  have : ∀ i ∈ List.range l.length,
      memmoveBytes b off l (off + i) = l.getD i 0 := by
    intro i hi
    rw [memmoveBytes_in b off l (off + i) (by omega)
      (by have := List.mem_range.mp hi; omega)]
    congr 1
    omega
  rw [List.map_congr_left this, map_getD_range]

theorem readBytes_succ (b : Nat → Nat) (off k : Nat) :
    readBytes b off (k + 1) = b off :: readBytes b (off + 1) k := by
  unfold readBytes
  rw [List.range_succ_eq_map]
  simp only [List.map_cons, List.map_map, Nat.add_zero]
  congr 1
  apply List.map_congr_left
  intro i _
  simp only [Function.comp_apply]
  congr 1
  omega

theorem readBytes_succ_last (b : Nat → Nat) (off k : Nat) :
    readBytes b off (k + 1) = readBytes b off k ++ [b (off + k)] := by
  unfold readBytes
  rw [List.range_succ]
  simp

/-- Wrapping an already-stuffed body into a frame: store the body at offset 1,
the sentinel at offset 0, the closing sentinel right after the body, and
hand out the first `len + 2` bytes. -/
theorem readBytes_frame (b : Nat → Nat) (enc : List Nat) :
    readBytes (setByte (setByte (memmoveBytes b 1 enc) 0 0) (enc.length + 1) 0)
        0 (enc.length + 2) = 0 :: (enc ++ [0]) := by
  rw [readBytes_succ]
  rw [show enc.length + 1 = enc.length + 1 by rfl]
  rw [readBytes_succ_last]
  have h0 : (setByte (setByte (memmoveBytes b 1 enc) 0 0) (enc.length + 1) 0) 0 = 0 := by
    rw [setByte_ne _ _ _ _ (by omega), setByte_eq]
  have hlast : (setByte (setByte (memmoveBytes b 1 enc) 0 0) (enc.length + 1) 0)
      (0 + 1 + enc.length) = 0 := by
    rw [show 0 + 1 + enc.length = enc.length + 1 by omega, setByte_eq]
  have hmid : readBytes (setByte (setByte (memmoveBytes b 1 enc) 0 0) (enc.length + 1) 0)
      (0 + 1) enc.length = enc := by
    have hc : ∀ i, i < enc.length →
        (setByte (setByte (memmoveBytes b 1 enc) 0 0) (enc.length + 1) 0) (0 + 1 + i)
          = memmoveBytes b 1 enc (1 + i) := by
      intro i hi
      rw [setByte_ne _ _ _ _ (by omega), setByte_ne _ _ _ _ (by omega)]
    rw [readBytes_congr _ _ _ _ hc]
    have : readBytes (memmoveBytes b 1 enc) (0 + 1) enc.length
        = readBytes (memmoveBytes b 1 enc) 1 enc.length := by norm_num
    rw [this, readBytes_memmove]
  rw [h0, hlast, hmid]

/-! ## `log_tx` (`log.c` / `logserver.c`)

The port multiplexer: place the header byte `(port << 2) | 3` and the payload
in the static frame buffer, COBS-encode in place, and append
`[0x00, stuffed, 0x00]` to the TX ring.  Sizes over the maximum, or ports
over 63, take the `LOG_FATAL` path, which never returns — modelled as `none`.
-/

def LOG_MAX_PACKET_SIZE : Nat := 1500

/-- Modelled from the spec: `COBS_ENC_SIZE` lives in the absent `cobs.h`;
the spec gives the stuffed-size bound `L + ceil(L/254) + 1`. -/
def COBS_ENC_SIZE (l : Nat) : Nat := l + (l + 253) / 254 + 1

/-- `sizeof(b)` for the static buffer of `log_tx`:
`COBS_ENC_SIZE(LOG_MAX_PACKET_SIZE+1)+2`. -/
def LOG_TX_BUF_SIZE : Nat := COBS_ENC_SIZE (LOG_MAX_PACKET_SIZE + 1) + 2

/-- `log_tx(port, data, n)`.  `b0` is the previous contents of the static
frame buffer.  Returns the bytes handed to `tx_buffer` (appended to the TX
ring under `irq_lock`), or `none` on the `LOG_FATAL` paths. -/
def log_tx (b0 : Nat → Nat) (port : Nat) (data : List Nat) : Option (List Nat) :=
  if data.length > LOG_MAX_PACKET_SIZE then none
  else if 63 < port then none
  else
    let S := LOG_TX_BUF_SIZE
    let b1 := setByte b0 (S - (LOG_MAX_PACKET_SIZE + 1)) ((port * 4 + 3) % 256)
    let b2 := memmoveBytes b1 (S - LOG_MAX_PACKET_SIZE) data
    let enc := cobs_enc (readBytes b2 (S - (LOG_MAX_PACKET_SIZE + 1)) (data.length + 1))
    let b3 := memmoveBytes b2 1 enc
    let b4 := setByte b3 0 0
    let b5 := setByte b4 (enc.length + 1) 0
    some (readBytes b5 0 (enc.length + 2))

/-- C3: `log_tx(p, P, n)` with `n ≤ LOG_MAX_PACKET_SIZE` and `p ≤ 63`
appends to the TX ring exactly `[0x00] ++ COBS((p << 2) | 0b11 :: P) ++ [0x00]`;
with `n > LOG_MAX_PACKET_SIZE` or `p > 63` it takes the `LOG_FATAL` path
(modelled `none`), which never returns. -/
theorem log_tx_spec (b0 : Nat → Nat) (port : Nat) (data : List Nat) :
    log_tx b0 port data =
      if data.length ≤ LOG_MAX_PACKET_SIZE ∧ port ≤ 63 then
        some (0 :: (cobs_enc ((port * 4 + 3) :: data) ++ [0]))
      else none := by
  simp only [log_tx]
  by_cases hlen : data.length > LOG_MAX_PACKET_SIZE
  · rw [if_pos hlen, if_neg (by omega)]
  · rw [if_neg hlen]
    by_cases hport : 63 < port
    · rw [if_pos hport, if_neg (by omega)]
    · rw [if_neg hport, if_pos (by omega)]
      have h9 : LOG_TX_BUF_SIZE - (LOG_MAX_PACKET_SIZE + 1) = 9 := by decide
      have h10 : LOG_TX_BUF_SIZE - LOG_MAX_PACKET_SIZE = 10 := by decide
      rw [h9, h10]
      have hmod : (port * 4 + 3) % 256 = port * 4 + 3 :=
        Nat.mod_eq_of_lt (by omega)
      have hmsg : readBytes (memmoveBytes (setByte b0 9 ((port * 4 + 3) % 256)) 10 data)
          9 (data.length + 1) = (port * 4 + 3) :: data := by
        rw [readBytes_succ]
        have hhead : memmoveBytes (setByte b0 9 ((port * 4 + 3) % 256)) 10 data 9
            = port * 4 + 3 := by
          rw [memmoveBytes_out _ _ _ _ (Or.inl (by omega)), setByte_eq, hmod]
        have htail : readBytes (memmoveBytes (setByte b0 9 ((port * 4 + 3) % 256)) 10 data)
            (9 + 1) data.length = data := by
          rw [show (9 : Nat) + 1 = 10 from rfl, readBytes_memmove]
        rw [hhead, htail]
      rw [hmsg]
      exact congrArg some (readBytes_frame _ _)

/-! ## `log_tx_suspend` / `log_tx_resume` (`log.c`, server build)

`log_tx_suspend` clears `log_data.tx_enabled`; `log_tx_resume` sets it and
builds the app-hash beacon in its static buffer — header `(63 << 2) | 3` at
offset 2, the `LOG_APP_HASH_SIZE`-byte application hash at offset 3, COBS
encoding in place to offset 1, sentinels at offsets 0 and `n+1` — and hands
`(b, n+2)` to `ucuart_tx_schedule`.
-/

def LOG_APP_HASH_SIZE : Nat := 64

/-- `log_tx_suspend`: the resulting `tx_enabled` flag. -/
def log_tx_suspend : Bool := false

/-- `log_tx_resume`: returns the new `tx_enabled` flag and the bytes handed
to the link (`ucuart_tx_schedule(uart, b, n+2)`).  `b0` is the previous
contents of the static buffer, `hash` the application hash returned by
`log_app_hash(NULL)` (`memmove` copies exactly `LOG_APP_HASH_SIZE` bytes
from it). -/
def log_tx_resume (b0 : Nat → Nat) (hash : List Nat) : Bool × List Nat :=
  let b1 := setByte b0 2 ((63 * 4 + 3) % 256)
  let b2 := memmoveBytes b1 3 (hash.take LOG_APP_HASH_SIZE)
  let enc := cobs_enc (readBytes b2 2 (LOG_APP_HASH_SIZE + 1))
  let b3 := memmoveBytes b2 1 enc
  let b4 := setByte b3 0 0
  let b5 := setByte b4 (enc.length + 1) 0
  (true, readBytes b5 0 (enc.length + 2))

/-- C9: after `log_tx_suspend(); log_tx_resume()`, the bytes handed to the
link are one frame `[0x00] ++ COBS(0xFF :: hash) ++ [0x00]` whose de-stuffed
content starts with the header `(63 << 2) | 0b11 = 0xFF` — port 63, type
`0b11` — followed by exactly the 64-byte application hash. -/
theorem log_tx_resume_beacon (b0 : Nat → Nat) (hash : List Nat)
    (h : hash.length = LOG_APP_HASH_SIZE) :
    log_tx_suspend = false ∧
    (log_tx_resume b0 hash).1 = true ∧
    (log_tx_resume b0 hash).2 = 0 :: (cobs_enc (255 :: hash) ++ [0]) ∧
    cobs_dec (cobs_enc (255 :: hash)) = some (255 :: hash) ∧
    (255 : Nat) / 4 = 63 ∧ (255 : Nat) % 4 = 3 ∧
    (255 :: hash).drop 1 = hash ∧ hash.length = 64 := by
  have htake : hash.take LOG_APP_HASH_SIZE = hash :=
    List.take_of_length_le (by omega)
  have hmsg : readBytes (memmoveBytes (setByte b0 2 ((63 * 4 + 3) % 256)) 3
      (hash.take LOG_APP_HASH_SIZE)) 2 (LOG_APP_HASH_SIZE + 1) = 255 :: hash := by
    rw [readBytes_succ]
    have hhead : memmoveBytes (setByte b0 2 ((63 * 4 + 3) % 256)) 3
        (hash.take LOG_APP_HASH_SIZE) 2 = 255 := by
      rw [memmoveBytes_out _ _ _ _ (Or.inl (by omega)), setByte_eq]
    have htail : readBytes (memmoveBytes (setByte b0 2 ((63 * 4 + 3) % 256)) 3
        (hash.take LOG_APP_HASH_SIZE)) (2 + 1) LOG_APP_HASH_SIZE = hash := by
      rw [show (2 : Nat) + 1 = 3 from rfl, htake, ← h, readBytes_memmove]
    rw [hhead, htail]
  refine ⟨rfl, rfl, ?_, cobs_dec_enc _, by norm_num, by norm_num, by simp, h⟩
  show readBytes _ 0 _ = _
  rw [hmsg]
  exact readBytes_frame _ _

/-- Witness for `log_tx_resume_beacon` at a concrete 64-byte hash. -/
theorem log_tx_resume_beacon_witness :
    log_tx_suspend = false ∧
    (log_tx_resume (fun _ => 0) (List.replicate 64 7)).1 = true ∧
    (log_tx_resume (fun _ => 0) (List.replicate 64 7)).2
      = 0 :: (cobs_enc (255 :: List.replicate 64 7) ++ [0]) ∧
    cobs_dec (cobs_enc (255 :: List.replicate 64 7))
      = some (255 :: List.replicate 64 7) ∧
    (255 : Nat) / 4 = 63 ∧ (255 : Nat) % 4 = 3 ∧
    (255 :: List.replicate 64 7).drop 1 = List.replicate 64 7 ∧
    (List.replicate 64 7).length = 64 :=
  log_tx_resume_beacon (fun _ => 0) (List.replicate 64 7) (by simp [LOG_APP_HASH_SIZE])

/-! ## Server RX dispatch (`logserver.c`, `log_task_entry` / `log_rx`)

After a successful COBS decode of `n > 0` bytes, the worker takes the type
from `buf[0] & 3` and the port from `buf[0] >> 2`, and either reports an
error, wakes the blocking-receive waiter, or runs the registered handler.
The blocking-receive slot is `(rx_port, rx_n, rx_data)`; `rx_port = 255`
means idle; `log_rx` returns `log_data.rx_n` after being woken.
-/

/-- Modelled from the spec: `LOG_MAX_PORTS` is referenced by `logserver.c`
but defined in a header not among the sources; the spec gives the
port-handler table size `LOG_MAX_IN_PORTS = 8`. -/
def LOG_MAX_PORTS : Nat := 8

structure RxSlot where
  rx_port : Nat
  rx_n : Nat
  rx_data : List Nat
deriving DecidableEq

inductive RxDispatch where
  | badType (t : Nat)
  | delivered (slot : RxSlot)
  | badPort (p : Nat)
  | handled (port : Nat) (payload : List Nat)
  | noHandler (port : Nat) (payload : List Nat)
deriving DecidableEq

/-- The `n > 0` dispatch branch of `log_task_entry`.  `frame` is the
COBS-decoded frame (`n = frame.length` bytes); `slot.rx_data` models the
contents of the waiting caller's buffer (of capacity `slot.rx_n`, as a list
at least that long). -/
def log_dispatch_frame (slot : RxSlot) (hasHandler : Nat → Bool)
    (frame : List Nat) : RxDispatch :=
  let ty := frame.headD 0 % 4
  let port := frame.headD 0 / 4
  if ty ≠ 3 then .badType ty
  else if slot.rx_port < 64 ∧ port = slot.rx_port then
    let payload := frame.drop 1
    let nn := min payload.length slot.rx_n
    .delivered { rx_port := 255, rx_n := payload.length,
                 rx_data := payload.take nn ++ slot.rx_data.drop nn }
  else if port ≥ LOG_MAX_PORTS then .badPort port
  else if hasHandler port then .handled port (frame.drop 1)
  else .noHandler port (frame.drop 1)

/-- `log_rx`'s return value once woken: `log_data.rx_n`. -/
def log_rx_ret (slot : RxSlot) : Nat := slot.rx_n

/-- C10: a frame for the blocking-RX port whose payload exceeds the waiting
caller's capacity is copied truncated to the capacity, but the stored (and
returned) length is the full untruncated payload length, which exceeds the
buffer the caller supplied. -/
theorem log_rx_untruncated_length (slot : RxSlot) (hasHandler : Nat → Bool)
    (frame : List Nat) (hport64 : slot.rx_port < 64)
    (hhd : frame.headD 0 = slot.rx_port * 4 + 3)
    (hbig : slot.rx_n < frame.length - 1) :
    log_dispatch_frame slot hasHandler frame =
      .delivered ⟨255, frame.length - 1,
        (frame.drop 1).take slot.rx_n ++ slot.rx_data.drop slot.rx_n⟩ ∧
    log_rx_ret ⟨255, frame.length - 1,
        (frame.drop 1).take slot.rx_n ++ slot.rx_data.drop slot.rx_n⟩
      = frame.length - 1 ∧
    slot.rx_n < frame.length - 1 := by
  refine ⟨?_, rfl, hbig⟩
  simp only [log_dispatch_frame, hhd]
  rw [if_neg (by omega)]
  rw [if_pos ⟨hport64, by omega⟩]
  have hdrop : (frame.drop 1).length = frame.length - 1 := by simp
  have hmin : min (frame.drop 1).length slot.rx_n = slot.rx_n := by omega
  rw [hmin, hdrop]

/-- Witness for `log_rx_untruncated_length`: port 5 waiting with capacity 2,
frame `[5*4+3, 9, 8, 7]` (3 payload bytes): the caller's buffer receives
`[9, 8]` but `log_rx` reports length 3. -/
theorem log_rx_untruncated_length_witness :
    log_dispatch_frame ⟨5, 2, [0, 0, 0, 0]⟩ (fun _ => false) [23, 9, 8, 7] =
      .delivered ⟨255, 3, [9, 8, 0, 0]⟩ ∧
    log_rx_ret ⟨255, 3, [9, 8, 0, 0]⟩ = 3 ∧
    2 < 3 := by
  have h := log_rx_untruncated_length ⟨5, 2, [0, 0, 0, 0]⟩ (fun _ => false)
    [23, 9, 8, 7] (by decide) (by decide) (by decide)
  simpa using h

/-! ## Ring-buffer write/read correctness (towards the round-trip claim) -/

theorem getD_drop_zero (l : List Nat) (k i : Nat) :
    (l.drop k).getD i 0 = l.getD (k + i) 0 := by
  simp [List.getD_eq_getElem?_getD, List.getElem?_drop]

theorem getD_take_zero (l : List Nat) (k i : Nat) (h : i < k) :
    (l.take k).getD i 0 = l.getD i 0 := by
  simp [List.getD_eq_getElem?_getD, List.getElem?_take, h]

theorem cb_content_length (cb : Cb) : (cb_content cb).length = cb_read_avail cb := by
  simp [cb_content]

theorem cb_read_avail_le (cb : Cb) (hv : CbValid cb) :
    cb_read_avail cb ≤ cb.n - 1 := by
  obtain ⟨hr, hw⟩ := hv
  unfold cb_read_avail
  split <;> omega

/-- Pointwise description of the backing store after `cb_write`: the second
`memmove` chunk (offsets `0 ≤ p < len - n1`, present only when the data
wraps) wins over the first (offsets `write ≤ p < write + n1`); everything
else is untouched. -/
theorem cb_write_buf (cb : Cb) (d : List Nat) (p : Nat) :
    (cb_write cb d).buf p =
      (if d.length > min (cb.n - cb.write) d.length ∧
          p < d.length - min (cb.n - cb.write) d.length then
        d.getD (min (cb.n - cb.write) d.length + p) 0
      else if cb.write ≤ p ∧ p < cb.write + min (cb.n - cb.write) d.length then
        d.getD (p - cb.write) 0
      else cb.buf p) := by
  simp only [cb_write]
  by_cases hwrap : d.length > min (cb.n - cb.write) d.length
  · rw [if_pos hwrap]
    by_cases hp2 : p < d.length - min (cb.n - cb.write) d.length
    · rw [if_pos ⟨hwrap, hp2⟩]
      rw [memmoveBytes_in _ _ _ _ (by omega) (by simp only [List.length_drop]; omega)]
      simp only [Nat.sub_zero]
      rw [getD_drop_zero]
    · rw [if_neg (by omega)]
      rw [memmoveBytes_out _ _ _ _ (by simp only [List.length_drop]; omega)]
      by_cases hp1 : cb.write ≤ p ∧ p < cb.write + min (cb.n - cb.write) d.length
      · rw [if_pos hp1]
        rw [memmoveBytes_in _ _ _ _ (by omega)
          (by simp only [List.length_take]; omega)]
        rw [getD_take_zero _ _ _ (by omega)]
      · rw [if_neg hp1]
        rw [memmoveBytes_out _ _ _ _ (by simp only [List.length_take]; omega)]
  · rw [if_neg hwrap, if_neg (by omega)]
    by_cases hp1 : cb.write ≤ p ∧ p < cb.write + min (cb.n - cb.write) d.length
    · rw [if_pos hp1]
      rw [memmoveBytes_in _ _ _ _ (by omega)
        (by simp only [List.length_take]; omega)]
      rw [getD_take_zero _ _ _ (by omega)]
    · rw [if_neg hp1]
      rw [memmoveBytes_out _ _ _ _ (by simp only [List.length_take]; omega)]

theorem cb_write_read_unchanged (cb : Cb) (d : List Nat) :
    (cb_write cb d).read = cb.read ∧ (cb_write cb d).n = cb.n := by
  simp [cb_write]

theorem cb_write_write (cb : Cb) (d : List Nat) :
    (cb_write cb d).write =
      if cb.write + d.length ≥ cb.n then cb.write + d.length - cb.n
      else cb.write + d.length := by
  simp [cb_write]

theorem cb_write_avail_after (cb : Cb) (d : List Nat) (hv : CbValid cb)
    (hroom : cb_read_avail cb + d.length ≤ cb.n - 1) :
    cb_read_avail (cb_write cb d) = cb_read_avail cb + d.length := by
  obtain ⟨hr, hw⟩ := hv
  have hread := (cb_write_read_unchanged cb d).1
  have hn := (cb_write_read_unchanged cb d).2
  have hwrite := cb_write_write cb d
  unfold cb_read_avail at hroom ⊢
  rw [hread, hn, hwrite]
  by_cases hge : cb.write + d.length ≥ cb.n
  · rw [if_pos hge]
    split at hroom <;> split <;> omega
  · rw [if_neg hge]
    split at hroom <;> split <;> omega

theorem cb_write_valid (cb : Cb) (d : List Nat) (hv : CbValid cb)
    (hroom : cb_read_avail cb + d.length ≤ cb.n - 1) :
    CbValid (cb_write cb d) := by
  obtain ⟨hr, hw⟩ := hv
  have hread := (cb_write_read_unchanged cb d).1
  have hn := (cb_write_read_unchanged cb d).2
  have hwrite := cb_write_write cb d
  have ha : cb_read_avail cb + d.length ≤ cb.n - 1 := hroom
  unfold cb_read_avail at ha
  constructor
  · rw [hread, hn]; exact hr
  · rw [hwrite, hn]
    split at ha <;> split <;> omega

theorem cb_content_getElem (cb : Cb) (i : Nat) (h : i < (cb_content cb).length) :
    (cb_content cb)[i] = cb.buf (wrapIdx cb.n cb.read i) := by
  simp [cb_content]

theorem cb_write_content (cb : Cb) (d : List Nat) (hv : CbValid cb)
    (hroom : cb_read_avail cb + d.length ≤ cb.n - 1) :
    cb_content (cb_write cb d) = cb_content cb ++ d := by
  obtain ⟨hr, hw⟩ := hv
  have hread := (cb_write_read_unchanged cb d).1
  have hn := (cb_write_read_unchanged cb d).2
  have havail := cb_write_avail_after cb d ⟨hr, hw⟩ hroom
  apply List.ext_getElem
  · simp only [cb_content_length, havail, List.length_append]
  · intro i h1 h2
    have hi : i < cb_read_avail cb + d.length := by
      rw [cb_content_length, havail] at h1; exact h1
    rw [cb_content_getElem _ _ h1, hread, hn, cb_write_buf]
    rcases le_or_lt cb.read cb.write with hrw | hrw
    · have hav : cb_read_avail cb = cb.write - cb.read := by
        unfold cb_read_avail; rw [if_pos hrw]
      rw [hav] at hi hroom havail
      by_cases hia : i < cb.write - cb.read
      · have hrhs : (cb_content cb ++ d)[i] = cb.buf (wrapIdx cb.n cb.read i) := by
          rw [List.getElem_append_left (by rw [cb_content_length, hav]; exact hia)]
          exact cb_content_getElem _ _ (by rw [cb_content_length, hav]; exact hia)
        rw [hrhs]
        rw [if_neg (by unfold wrapIdx; split <;> omega)]
        rw [if_neg (by unfold wrapIdx; split <;> omega)]
      · have hrhs : (cb_content cb ++ d)[i] = d.getD (i - (cb.write - cb.read)) 0 := by
          rw [List.getElem_append_right (by rw [cb_content_length, hav]; omega)]
          rw [List.getD_eq_getElem d 0 (by
            simp only [List.length_append, cb_content_length, hav] at h2
            omega)]
          simp only [cb_content_length, hav]
        rw [hrhs]
        unfold wrapIdx
        split <;> split <;>
          first
          | exact congrArg (fun j => d.getD j 0) (by omega)
          | (exfalso; omega)
          | (split <;>
              first
              | exact congrArg (fun j => d.getD j 0) (by omega)
              | (exfalso; omega))
    · have hav : cb_read_avail cb = cb.n - cb.read + cb.write := by
        unfold cb_read_avail; rw [if_neg (by omega)]
      rw [hav] at hi hroom havail
      by_cases hia : i < cb.n - cb.read + cb.write
      · have hrhs : (cb_content cb ++ d)[i] = cb.buf (wrapIdx cb.n cb.read i) := by
          rw [List.getElem_append_left (by rw [cb_content_length, hav]; exact hia)]
          exact cb_content_getElem _ _ (by rw [cb_content_length, hav]; exact hia)
        rw [hrhs]
        rw [if_neg (by unfold wrapIdx; split <;> omega)]
        rw [if_neg (by unfold wrapIdx; split <;> omega)]
      · have hrhs : (cb_content cb ++ d)[i]
            = d.getD (i - (cb.n - cb.read + cb.write)) 0 := by
          rw [List.getElem_append_right (by rw [cb_content_length, hav]; omega)]
          rw [List.getD_eq_getElem d 0 (by
            simp only [List.length_append, cb_content_length, hav] at h2
            omega)]
          simp only [cb_content_length, hav]
        rw [hrhs]
        unfold wrapIdx
        split <;> split <;>
          first
          | exact congrArg (fun j => d.getD j 0) (by omega)
          | (exfalso; omega)
          | (split <;>
              first
              | exact congrArg (fun j => d.getD j 0) (by omega)
              | (exfalso; omega))

theorem cb_read_state (cb : Cb) (k : Nat) :
    (cb_read cb k).2.n = cb.n ∧ (cb_read cb k).2.write = cb.write ∧
    (cb_read cb k).2.buf = cb.buf ∧
    (cb_read cb k).2.read = wrapIdx cb.n cb.read k := by
  refine ⟨rfl, rfl, rfl, ?_⟩
  simp only [cb_read, wrapIdx]
  split <;> split <;> omega

theorem cb_read_valid (cb : Cb) (k : Nat) (hv : CbValid cb)
    (hk : k ≤ cb_read_avail cb) : CbValid (cb_read cb k).2 := by
  obtain ⟨hr, hw⟩ := hv
  have ha := cb_read_avail_le cb ⟨hr, hw⟩
  obtain ⟨hn, hwr, _, hrd⟩ := cb_read_state cb k
  constructor
  · rw [hn, hrd]
    unfold wrapIdx
    split <;> omega
  · rw [hn, hwr]; exact hw

theorem cb_read_avail_after (cb : Cb) (k : Nat) (hv : CbValid cb)
    (hk : k ≤ cb_read_avail cb) :
    cb_read_avail (cb_read cb k).2 = cb_read_avail cb - k := by
  obtain ⟨hr, hw⟩ := hv
  obtain ⟨hn, hwr, _, hrd⟩ := cb_read_state cb k
  unfold cb_read_avail at hk ⊢
  rw [hn, hwr, hrd]
  unfold wrapIdx
  split at hk <;> split <;> split <;> omega

theorem cb_read_out (cb : Cb) (k : Nat) (hv : CbValid cb)
    (hk : k ≤ cb_read_avail cb) :
    (cb_read cb k).1 = (cb_content cb).take k := by
  obtain ⟨hr, hw⟩ := hv
  have ha := cb_read_avail_le cb ⟨hr, hw⟩
  apply List.ext_getElem
  · simp only [cb_read, List.length_append, List.length_map, List.length_range,
      List.length_take, cb_content_length]
    omega
  · intro i h1 h2
    have hik : i < k := by
      simp only [List.length_take, cb_content_length] at h2
      omega
    have hrhs : ((cb_content cb).take k)[i] = cb.buf (wrapIdx cb.n cb.read i) := by
      rw [List.getElem_take]
      exact cb_content_getElem _ _ (by rw [cb_content_length]; omega)
    rw [hrhs]
    simp only [cb_read] at h1 ⊢
    by_cases hsplit : i < min (cb.n - cb.read) k
    · rw [List.getElem_append_left (by simpa using hsplit)]
      simp only [List.getElem_map, List.getElem_range]
      exact congrArg cb.buf (by unfold wrapIdx; split <;> omega)
    · rw [List.getElem_append_right (by simp only [List.length_map, List.length_range]; omega)]
      simp only [List.getElem_map, List.getElem_range, List.length_map, List.length_range]
      apply congrArg cb.buf
      unfold cb_read_avail at hk
      unfold wrapIdx
      split at hk <;> split <;> omega

theorem cb_read_content (cb : Cb) (k : Nat) (hv : CbValid cb)
    (hk : k ≤ cb_read_avail cb) :
    cb_content (cb_read cb k).2 = (cb_content cb).drop k := by
  obtain ⟨hr, hw⟩ := hv
  have ha := cb_read_avail_le cb ⟨hr, hw⟩
  obtain ⟨hn, hwr, hbuf, hrd⟩ := cb_read_state cb k
  have havail := cb_read_avail_after cb k ⟨hr, hw⟩ hk
  apply List.ext_getElem
  · simp only [cb_content_length, havail, List.length_drop]
  · intro i h1 h2
    have hi : i < cb_read_avail cb - k := by
      rw [cb_content_length, havail] at h1; exact h1
    rw [cb_content_getElem _ _ h1, hn, hbuf, hrd]
    rw [List.getElem_drop]
    rw [cb_content_getElem _ _ (by rw [cb_content_length]; omega)]
    apply congrArg cb.buf
    rcases le_or_lt cb.read cb.write with hrw | hrw
    · have hav : cb_read_avail cb = cb.write - cb.read := by
        unfold cb_read_avail; rw [if_pos hrw]
      rw [hav] at hk hi
      unfold wrapIdx
      split <;> split <;> split <;> omega
    · have hav : cb_read_avail cb = cb.n - cb.read + cb.write := by
        unfold cb_read_avail; rw [if_neg (by omega)]
      rw [hav] at hk hi
      unfold wrapIdx
      split <;> split <;> split <;> omega

/-! ## Write/read sequences over the ring -/

/-- A sequence of `cb_write` calls. -/
def cb_write_seq (cb : Cb) (ds : List (List Nat)) : Cb := ds.foldl cb_write cb

/-- A sequence of `cb_read` calls of the given lengths, collecting outputs. -/
def cb_read_seq : Cb → List Nat → List (List Nat) × Cb
  | cb, [] => ([], cb)
  | cb, l :: ls =>
    let p := cb_read cb l
    let q := cb_read_seq p.2 ls
    (p.1 :: q.1, q.2)

def totalLen (ds : List (List Nat)) : Nat := (ds.map List.length).sum

theorem cb_write_seq_spec (ds : List (List Nat)) (cb : Cb) (hv : CbValid cb)
    (hroom : cb_read_avail cb + totalLen ds ≤ cb.n - 1) :
    CbValid (cb_write_seq cb ds) ∧
    (cb_write_seq cb ds).n = cb.n ∧
    (cb_write_seq cb ds).read = cb.read ∧
    cb_read_avail (cb_write_seq cb ds) = cb_read_avail cb + totalLen ds ∧
    cb_content (cb_write_seq cb ds) = cb_content cb ++ ds.flatten := by
  induction ds generalizing cb with
  | nil =>
    refine ⟨hv, rfl, rfl, by simp [totalLen, cb_write_seq], by simp [cb_write_seq]⟩
  | cons d ds ih =>
    have htot : totalLen (d :: ds) = d.length + totalLen ds := by
      simp [totalLen]
    have hroom1 : cb_read_avail cb + d.length ≤ cb.n - 1 := by omega
    have hv1 := cb_write_valid cb d hv hroom1
    have hn1 := (cb_write_read_unchanged cb d).2
    have hr1 := (cb_write_read_unchanged cb d).1
    have hav1 := cb_write_avail_after cb d hv hroom1
    have hc1 := cb_write_content cb d hv hroom1
    have hstep : cb_write_seq cb (d :: ds) = cb_write_seq (cb_write cb d) ds := rfl
    have hroom2 : cb_read_avail (cb_write cb d) + totalLen ds ≤ (cb_write cb d).n - 1 := by
      rw [hav1, hn1]; omega
    obtain ⟨v2, n2, r2, a2, c2⟩ := ih (cb_write cb d) hv1 hroom2
    refine ⟨by rw [hstep]; exact v2, by rw [hstep, n2, hn1],
      by rw [hstep, r2, hr1], ?_, ?_⟩
    · rw [hstep, a2, hav1, htot]; omega
    · rw [hstep, c2, hc1]
      simp

theorem cb_read_seq_spec (ds : List (List Nat)) (rest : List Nat) (cb : Cb)
    (hv : CbValid cb) (hc : cb_content cb = ds.flatten ++ rest) :
    (cb_read_seq cb (ds.map List.length)).1 = ds ∧
    CbValid (cb_read_seq cb (ds.map List.length)).2 ∧
    (cb_read_seq cb (ds.map List.length)).2.n = cb.n ∧
    (cb_read_seq cb (ds.map List.length)).2.write = cb.write ∧
    cb_content (cb_read_seq cb (ds.map List.length)).2 = rest := by
  induction ds generalizing cb with
  | nil =>
    exact ⟨rfl, hv, rfl, rfl, by simpa using hc⟩
  | cons d ds ih =>
    have hlenc : (cb_content cb).length = cb_read_avail cb := cb_content_length cb
    have hk : d.length ≤ cb_read_avail cb := by
      rw [← hlenc, hc]
      simp
    have hout := cb_read_out cb d.length hv hk
    have hv1 := cb_read_valid cb d.length hv hk
    have hc1 := cb_read_content cb d.length hv hk
    obtain ⟨hn1, hw1, _, _⟩ := cb_read_state cb d.length
    have htake : (cb_content cb).take d.length = d := by
      rw [hc, List.flatten_cons, List.append_assoc, List.take_left]
    have hdrop : (cb_content cb).drop d.length = ds.flatten ++ rest := by
      rw [hc, List.flatten_cons, List.append_assoc, List.drop_left]
    obtain ⟨o2, v2, n2, w2, c2⟩ := ih (cb_read cb d.length).2 hv1 (by rw [hc1, hdrop])
    simp only [List.map_cons, cb_read_seq]
    exact ⟨by rw [hout, htake, o2], v2, by rw [n2, hn1], by rw [w2, hw1], c2⟩

theorem cb_avail_zero (cb : Cb) (hv : CbValid cb) (h : cb_read_avail cb = 0) :
    cb.read = cb.write := by
  obtain ⟨hr, hw⟩ := hv
  unfold cb_read_avail at h
  split at h <;> omega

/-- C2 (amended): starting from an *empty* valid state (`read = write = v`),
writing any sequence of chunks with total length at most `N - 1` and then
reading back the same lengths in order returns exactly the chunks written;
afterwards the ring is empty again, with both indices equal to
`(v + total) mod N` — they equal the initial indices only when the total
is 0 or wraps completely. -/
theorem cb_write_read_roundtrip (n v : Nat) (buf : Nat → Nat) (ds : List (List Nat))
    (hv : v < n) (hlen : totalLen ds ≤ n - 1) :
    (cb_read_seq (cb_write_seq ⟨n, buf, v, v⟩ ds) (ds.map List.length)).1 = ds ∧
    (cb_read_seq (cb_write_seq ⟨n, buf, v, v⟩ ds) (ds.map List.length)).2.read
      = (cb_read_seq (cb_write_seq ⟨n, buf, v, v⟩ ds) (ds.map List.length)).2.write ∧
    (cb_read_seq (cb_write_seq ⟨n, buf, v, v⟩ ds) (ds.map List.length)).2.write
      = wrapIdx n v (totalLen ds) := by
  have hv0 : CbValid ⟨n, buf, v, v⟩ := ⟨hv, hv⟩
  have hav0 : cb_read_avail ⟨n, buf, v, v⟩ = 0 := by
    unfold cb_read_avail
    simp
  have hc0 : cb_content ⟨n, buf, v, v⟩ = [] := by
    unfold cb_content
    rw [hav0]
    simp
  obtain ⟨v1, n1, r1, a1, c1⟩ := cb_write_seq_spec ds ⟨n, buf, v, v⟩ hv0
    (by rw [hav0]; simpa using hlen)
  obtain ⟨o2, v2, n2, w2, c2⟩ := cb_read_seq_spec ds []
    (cb_write_seq ⟨n, buf, v, v⟩ ds) v1 (by rw [c1, hc0]; simp)
  refine ⟨o2, ?_, ?_⟩
  · apply cb_avail_zero _ v2
    rw [← cb_content_length, c2]
    rfl
  · have hr2 : (cb_read_seq (cb_write_seq ⟨n, buf, v, v⟩ ds) (ds.map List.length)).2.read
        = (cb_read_seq (cb_write_seq ⟨n, buf, v, v⟩ ds) (ds.map List.length)).2.write := by
      apply cb_avail_zero _ v2
      rw [← cb_content_length, c2]
      rfl
    rw [w2]
    -- the write index of the post-write state is determined by its
    -- availability, its read index and its capacity
    have key : ∀ s : Cb, CbValid s → s.n = n → s.read = v →
        cb_read_avail s = totalLen ds → s.write = wrapIdx n v (totalLen ds) := by
      intro s hsv hsn hsr hsa
      obtain ⟨h1, h2⟩ := hsv
      rw [hsn] at h1 h2
      rw [hsr] at h1
      unfold cb_read_avail at hsa
      rw [hsn, hsr] at hsa
      unfold wrapIdx
      split at hsa <;> split <;> omega
    exact key _ v1 (by rw [n1]) (by rw [r1]) (by rw [a1, hav0]; omega)

/-- The round-trip claim as stated — over *any* valid index state, with the
final indices claimed equal to the initial ones — is false: (a) starting
from the valid but non-empty state `read = 0, write = 1` over a stale
buffer, a write of `[5]` followed by a read of 1 byte returns the stale
byte `9`, not `5`; (b) even starting empty at `read = write = 0` in a
capacity-2 ring, after writing `[7]` and reading it back both indices are
1, not their initial value 0. -/
theorem cb_roundtrip_claim_counterexample :
    ((cb_read (cb_write ⟨4, fun _ => 9, 0, 1⟩ [5]) 1).1 = [9] ∧ (9 : Nat) ≠ 5) ∧
    ((cb_read (cb_write ⟨2, fun _ => 0, 0, 0⟩ [7]) 1).1 = [7] ∧
     (cb_read (cb_write ⟨2, fun _ => 0, 0, 0⟩ [7]) 1).2.read = 1 ∧
     (cb_read (cb_write ⟨2, fun _ => 0, 0, 0⟩ [7]) 1).2.write = 1 ∧ (1 : Nat) ≠ 0) := by
  refine ⟨⟨?_, by decide⟩, ⟨?_, ?_, ?_, by decide⟩⟩ <;> decide

/-- Witness for `cb_write_read_roundtrip`: capacity 3, starting empty at
index 2, writing `[5]` then `[6]` (total 2 = N - 1) and reading 1 + 1
bytes back. -/
theorem cb_write_read_roundtrip_witness :
    (cb_read_seq (cb_write_seq ⟨3, fun _ => 0, 2, 2⟩ [[5], [6]])
        ([[5], [6]].map List.length)).1 = [[5], [6]] ∧
    (cb_read_seq (cb_write_seq ⟨3, fun _ => 0, 2, 2⟩ [[5], [6]])
        ([[5], [6]].map List.length)).2.read
      = (cb_read_seq (cb_write_seq ⟨3, fun _ => 0, 2, 2⟩ [[5], [6]])
        ([[5], [6]].map List.length)).2.write ∧
    (cb_read_seq (cb_write_seq ⟨3, fun _ => 0, 2, 2⟩ [[5], [6]])
        ([[5], [6]].map List.length)).2.write
      = wrapIdx 3 2 (totalLen [[5], [6]]) :=
  cb_write_read_roundtrip 3 2 (fun _ => 0) [[5], [6]] (by decide) (by decide)

/-! ## Crash persistence (`log.c`: `log_valid` / `log_save`)

On boot (`log_pre_init`) with persistence enabled, `log_valid` checks the
no-init TX ring and the persisted application hash, and if valid `log_save`
copies the unread contents wrap-aware into the same-sized `saved_log`
region and drains the ring.  The backing-pointer check `tx_cb.b == tx_buf`
is pointer identity, which the shallow embedding carries inside `Cb.buf`;
the remaining checks are modelled field by field.
-/

def CONFIG_UC_LOG_BUF_SIZE : Nat := 4096 * 2

structure LogSaveState where
  tx : Cb
  /-- `app_hash__`: the current build's hash (`.apphash` section). -/
  app_hash_cur : List Nat
  /-- `app_hash`: the no-init copy persisted across the reset. -/
  app_hash_noinit : List Nat

/-- `log_valid()`. -/
def log_valid (s : LogSaveState) : Bool :=
  decide (s.tx.write < s.tx.n) && decide (s.tx.read < s.tx.n) &&
  decide (s.tx.n = CONFIG_UC_LOG_BUF_SIZE) &&
  decide (s.app_hash_cur = s.app_hash_noinit)

theorem cb_skip_read (cb : Cb) (k : Nat) :
    (cb_skip cb k).read = if cb.read + k ≥ cb.n then cb.read + k - cb.n
      else cb.read + k := rfl

theorem cb_skip_same (cb : Cb) (k : Nat) :
    (cb_skip cb k).n = cb.n ∧ (cb_skip cb k).write = cb.write ∧
    (cb_skip cb k).buf = cb.buf := ⟨rfl, rfl, rfl⟩

/-- The two peek/copy/skip rounds of `log_save`, copying `a` bytes. -/
def log_save_rounds (cb : Cb) (a : Nat) : List Nat × Cb :=
  let n1 := if cb_peek_avail cb > a then a else cb_peek_avail cb
  let part1 := cb_peekBytes cb n1
  let cb1 := cb_skip cb n1
  let rem := a - n1
  let n2 := if cb_peek_avail cb1 > rem then rem else cb_peek_avail cb1
  let part2 := cb_peekBytes cb1 n2
  (part1 ++ part2, cb_skip cb1 n2)

/-- `log_save()`: take the snapshot length (forcing a full dump when the
ring is empty by first advancing `read` by one), cap it at the saved-log
region size, then copy with the two peek rounds.  Returns the copied bytes,
`saved_log_n`, and the drained ring. -/
def log_save (cb : Cb) : List Nat × Nat × Cb :=
  let a := cb_read_avail cb
  let p := if a = 0 then (cb_read_avail (cb_skip cb 1), cb_skip cb 1) else (a, cb)
  let a2 := if p.1 > CONFIG_UC_LOG_BUF_SIZE then CONFIG_UC_LOG_BUF_SIZE else p.1
  let r := log_save_rounds p.2 a2
  (r.1, a2, r.2)

/-- The boot path: `saved_log_n = 0`, then save only when `log_valid`. -/
def log_save_boot (s : LogSaveState) : List Nat × Nat × Cb :=
  if log_valid s then log_save s.tx else ([], 0, s.tx)

theorem cb_read_avail_eq_zero (cb : Cb) (h : cb.read = cb.write) :
    cb_read_avail cb = 0 := by
  unfold cb_read_avail
  split <;> omega

theorem log_save_rounds_spec (cb : Cb) (hv : CbValid cb) :
    (log_save_rounds cb (cb_read_avail cb)).1 = cb_content cb ∧
    cb_read_avail (log_save_rounds cb (cb_read_avail cb)).2 = 0 := by
  obtain ⟨hr, hw⟩ := hv
  rcases le_or_lt cb.read cb.write with hrw | hrw
  · -- no wrap: one contiguous chunk of `write - read` bytes
    have hav : cb_read_avail cb = cb.write - cb.read := by
      unfold cb_read_avail; rw [if_pos hrw]
    have hpk : cb_peek_avail cb = cb.write - cb.read := by
      unfold cb_peek_avail; rw [if_pos hrw]
    have hrd1 : (cb_skip cb (cb.write - cb.read)).read = cb.write := by
      rw [cb_skip_read]; split <;> omega
    have hpk1 : cb_peek_avail (cb_skip cb (cb.write - cb.read)) = 0 := by
      unfold cb_peek_avail
      rw [hrd1, (cb_skip_same cb (cb.write - cb.read)).2.1,
        (cb_skip_same cb (cb.write - cb.read)).1]
      rw [if_pos (le_refl _)]
      omega
    simp only [log_save_rounds, hav, hpk, ite_self, Nat.sub_self, hpk1]
    constructor
    · simp only [cb_peekBytes, List.range_zero, List.map_nil, List.append_nil,
        cb_content, hav]
      apply List.map_congr_left
      intro i hi
      have hi' := List.mem_range.mp hi
      unfold wrapIdx
      rw [if_pos (by omega)]
    · apply cb_read_avail_eq_zero
      rw [cb_skip_read,
        (cb_skip_same (cb_skip cb (cb.write - cb.read)) 0).2.1,
        (cb_skip_same cb (cb.write - cb.read)).1, hrd1,
        (cb_skip_same cb (cb.write - cb.read)).2.1]
      split <;> omega
  · -- wrapped: `n - read` bytes from `read`, then `write` bytes from 0
    have hav : cb_read_avail cb = cb.n - cb.read + cb.write := by
      unfold cb_read_avail; rw [if_neg (by omega)]
    have hpk : cb_peek_avail cb = cb.n - cb.read := by
      unfold cb_peek_avail; rw [if_neg (by omega)]
    have hrd1 : (cb_skip cb (cb.n - cb.read)).read = 0 := by
      rw [cb_skip_read]; split <;> omega
    have hpk1 : cb_peek_avail (cb_skip cb (cb.n - cb.read)) = cb.write := by
      unfold cb_peek_avail
      rw [hrd1, (cb_skip_same cb (cb.n - cb.read)).2.1,
        (cb_skip_same cb (cb.n - cb.read)).1]
      rw [if_pos (by omega)]
      omega
    have hsel1 : (if cb.n - cb.read > cb.n - cb.read + cb.write
        then cb.n - cb.read + cb.write else cb.n - cb.read) = cb.n - cb.read := by
      rw [if_neg (by omega)]
    have hrem : cb.n - cb.read + cb.write - (cb.n - cb.read) = cb.write := by omega
    simp only [log_save_rounds, hav, hpk, hsel1, hrem, hpk1, ite_self]
    constructor
    · apply List.ext_getElem
      · simp only [List.length_append, cb_peekBytes, List.length_map,
          List.length_range, cb_content_length, hav]
      · intro i h1 h2
        rw [cb_content_getElem _ _ h2]
        by_cases hi1 : i < cb.n - cb.read
        · rw [List.getElem_append_left (by
            simp only [cb_peekBytes, List.length_map, List.length_range]
            omega)]
          simp only [cb_peekBytes, List.getElem_map, List.getElem_range]
          apply congrArg cb.buf
          unfold wrapIdx
          rw [if_pos (by omega)]
        · rw [List.getElem_append_right (by
            simp only [cb_peekBytes, List.length_map, List.length_range]
            omega)]
          simp only [cb_peekBytes, List.getElem_map, List.getElem_range,
            List.length_map, List.length_range, hrd1]
          apply congrArg cb.buf
          have hiav : i < cb.n - cb.read + cb.write := by
            rw [cb_content_length, hav] at h2; exact h2
          unfold wrapIdx
          rw [if_neg (by omega)]
          omega
    · apply cb_read_avail_eq_zero
      rw [cb_skip_read,
        (cb_skip_same (cb_skip cb (cb.n - cb.read)) cb.write).2.1,
        (cb_skip_same cb (cb.n - cb.read)).1, hrd1,
        (cb_skip_same cb (cb.n - cb.read)).2.1]
      split <;> omega

theorem cb_skip_one_avail (cb : Cb) (hv : CbValid cb) (heq : cb.read = cb.write) :
    CbValid (cb_skip cb 1) ∧ cb_read_avail (cb_skip cb 1) = cb.n - 1 := by
  obtain ⟨hr, hw⟩ := hv
  constructor
  · constructor
    · rw [(cb_skip_same cb 1).1, cb_skip_read]
      split <;> omega
    · rw [(cb_skip_same cb 1).1, (cb_skip_same cb 1).2.1]
      exact hw
  · unfold cb_read_avail
    rw [(cb_skip_same cb 1).1, (cb_skip_same cb 1).2.1, cb_skip_read]
    split <;> split <;> omega

theorem cb_skip_one_content (cb : Cb) (hv : CbValid cb) (heq : cb.read = cb.write) :
    cb_content (cb_skip cb 1) =
      (List.range (cb.n - 1)).map (fun i => cb.buf (wrapIdx cb.n (cb.read + 1) i)) := by
  obtain ⟨hr, hw⟩ := hv
  unfold cb_content
  rw [(cb_skip_one_avail cb ⟨hr, hw⟩ heq).2, (cb_skip_same cb 1).1,
    (cb_skip_same cb 1).2.2]
  apply List.map_congr_left
  intro i hi
  have hi' := List.mem_range.mp hi
  apply congrArg cb.buf
  rw [cb_skip_read]
  unfold wrapIdx
  split <;> split <;> (try split) <;> omega

/-- C8: on boot with persistence enabled, when `log_valid` passes, the
ring's unread contents are copied wrap-aware into the saved-log region and
its `readAvail` is 0 afterwards; when the ring was empty (`read = write`)
the read index is first advanced by one and all `N - 1` remaining bytes are
saved — the snapshot is the whole buffer from offset `read + 1` around the
wrap, missing only the single byte at the old read offset. -/
theorem log_save_boot_spec (s : LogSaveState) (hvalid : log_valid s = true) :
    (s.tx.read ≠ s.tx.write →
      (log_save_boot s).1 = cb_content s.tx ∧
      (log_save_boot s).2.1 = cb_read_avail s.tx ∧
      cb_read_avail (log_save_boot s).2.2 = 0) ∧
    (s.tx.read = s.tx.write →
      (log_save_boot s).1 = (List.range (s.tx.n - 1)).map
          (fun i => s.tx.buf (wrapIdx s.tx.n (s.tx.read + 1) i)) ∧
      (log_save_boot s).2.1 = s.tx.n - 1 ∧
      cb_read_avail (log_save_boot s).2.2 = 0) := by
  have hchecks := hvalid
  simp only [log_valid, Bool.and_eq_true, decide_eq_true_eq] at hchecks
  obtain ⟨⟨⟨hw, hr⟩, hn⟩, _⟩ := hchecks
  have hboot : log_save_boot s = log_save s.tx := by
    unfold log_save_boot
    rw [hvalid]
    simp
  rw [hboot]
  constructor
  · intro hne
    have hane : ¬ cb_read_avail s.tx = 0 := by
      unfold cb_read_avail
      split <;> omega
    have hle := cb_read_avail_le s.tx ⟨hr, hw⟩
    simp only [log_save]
    rw [if_neg hane]
    rw [if_neg (by simp only []; omega)]
    obtain ⟨hcopy, hdrain⟩ := log_save_rounds_spec s.tx ⟨hr, hw⟩
    exact ⟨hcopy, rfl, hdrain⟩
  · intro heq
    have ha0 : cb_read_avail s.tx = 0 := cb_read_avail_eq_zero s.tx heq
    obtain ⟨hv1, hav1⟩ := cb_skip_one_avail s.tx ⟨hr, hw⟩ heq
    simp only [log_save]
    rw [if_pos ha0]
    rw [if_neg (by simp only []; rw [hav1]; omega)]
    obtain ⟨hcopy, hdrain⟩ := log_save_rounds_spec (cb_skip s.tx 1) hv1
    refine ⟨?_, ?_, ?_⟩
    · show (log_save_rounds (cb_skip s.tx 1) (cb_read_avail (cb_skip s.tx 1))).1 = _
      rw [hcopy, cb_skip_one_content s.tx ⟨hr, hw⟩ heq]
    · exact hav1
    · exact hdrain

/-- Witness for `log_save_boot_spec` at a concrete valid state (capacity
8192, `read = 5`, `write = 9`, matching hashes). -/
theorem log_save_boot_spec_witness :
    ((⟨⟨8192, fun _ => 3, 5, 9⟩, [1, 2], [1, 2]⟩ : LogSaveState).tx.read ≠
        (⟨⟨8192, fun _ => 3, 5, 9⟩, [1, 2], [1, 2]⟩ : LogSaveState).tx.write →
      (log_save_boot ⟨⟨8192, fun _ => 3, 5, 9⟩, [1, 2], [1, 2]⟩).1
        = cb_content (⟨⟨8192, fun _ => 3, 5, 9⟩, [1, 2], [1, 2]⟩ : LogSaveState).tx ∧
      (log_save_boot ⟨⟨8192, fun _ => 3, 5, 9⟩, [1, 2], [1, 2]⟩).2.1
        = cb_read_avail (⟨⟨8192, fun _ => 3, 5, 9⟩, [1, 2], [1, 2]⟩ : LogSaveState).tx ∧
      cb_read_avail (log_save_boot ⟨⟨8192, fun _ => 3, 5, 9⟩, [1, 2], [1, 2]⟩).2.2 = 0) ∧
    ((⟨⟨8192, fun _ => 3, 5, 9⟩, [1, 2], [1, 2]⟩ : LogSaveState).tx.read =
        (⟨⟨8192, fun _ => 3, 5, 9⟩, [1, 2], [1, 2]⟩ : LogSaveState).tx.write →
      (log_save_boot ⟨⟨8192, fun _ => 3, 5, 9⟩, [1, 2], [1, 2]⟩).1
        = (List.range ((⟨⟨8192, fun _ => 3, 5, 9⟩, [1, 2], [1, 2]⟩ : LogSaveState).tx.n - 1)).map
            (fun i => (⟨⟨8192, fun _ => 3, 5, 9⟩, [1, 2], [1, 2]⟩ : LogSaveState).tx.buf
              (wrapIdx (⟨⟨8192, fun _ => 3, 5, 9⟩, [1, 2], [1, 2]⟩ : LogSaveState).tx.n
                ((⟨⟨8192, fun _ => 3, 5, 9⟩, [1, 2], [1, 2]⟩ : LogSaveState).tx.read + 1) i)) ∧
      (log_save_boot ⟨⟨8192, fun _ => 3, 5, 9⟩, [1, 2], [1, 2]⟩).2.1
        = (⟨⟨8192, fun _ => 3, 5, 9⟩, [1, 2], [1, 2]⟩ : LogSaveState).tx.n - 1 ∧
      cb_read_avail (log_save_boot ⟨⟨8192, fun _ => 3, 5, 9⟩, [1, 2], [1, 2]⟩).2.2 = 0) :=
  log_save_boot_spec ⟨⟨8192, fun _ => 3, 5, 9⟩, [1, 2], [1, 2]⟩ (by decide)

/-! ## CBOR item codec (`cbor.c`)

Streams are consumed from the front of a `List Nat` of bytes; the sticky
error of `cbor_stream_t` is modelled by tagging every error with a Bool
that records whether it was raised through `RET_ERROR` (which writes
`s->error`) or returned plainly by a conversion helper.  Floating-point
payloads are carried as their wire bit patterns (`FRep` records which
conversion produced a `float64` value), which is adequate for the
structural claims below.  The compile-time configuration of this build
forces `CBOR_NO_DATETIME_STRING` and `CBOR_NO_DECIMAL`, so tag 0 and tag 4
are not converted; tags 1, 24, 30 and 55799 are handled.
-/

instance {e a : Type} [DecidableEq e] [DecidableEq a] :
    DecidableEq (Except e a) := fun x y =>
  match x, y with
  | .error e1, .error e2 =>
    if h : e1 = e2 then isTrue (congrArg Except.error h)
    else isFalse (fun hc => h (by cases hc; rfl))
  | .error _, .ok _ => isFalse (fun hc => by cases hc)
  | .ok _, .error _ => isFalse (fun hc => by cases hc)
  | .ok v1, .ok v2 =>
    if h : v1 = v2 then isTrue (congrArg Except.ok h)
    else isFalse (fun hc => h (by cases hc; rfl))

inductive CErr where
  | endOfStream | invalidAI | indefMismatch | indefNesting | invalidUtf8
  | bufferTooSmall | badType | recursion | mapLength | badSimpleValue
  | unexpectedBreak | nullErr | itemTooLong | internal1 | internal2
  | range | keyNotFound | badDatetime | badFloat64 | badDecimal
  | badRational | badEncoded | cantConvertType | idxTooBig | fmt
  | arrayTooLarge
  /-- Model artifact: recursion fuel ran out.  Never reached when the fuel
  is a bound on the stream length as in `cbor_read_any` below. -/
  | fuelOut
deriving DecidableEq

/-- Numeric value of the `cbor_error_t` enumerator. -/
def cErrCode : CErr → Nat
  | .endOfStream => 1 | .invalidAI => 2 | .indefMismatch => 3
  | .indefNesting => 4 | .invalidUtf8 => 5 | .bufferTooSmall => 6
  | .badType => 7 | .recursion => 8 | .mapLength => 9
  | .badSimpleValue => 10 | .unexpectedBreak => 11 | .nullErr => 12
  | .itemTooLong => 13 | .internal1 => 14 | .internal2 => 15
  | .range => 16 | .keyNotFound => 17 | .badDatetime => 18
  | .badFloat64 => 19 | .badDecimal => 20 | .badRational => 21
  | .badEncoded => 22 | .cantConvertType => 23 | .idxTooBig => 24
  | .fmt => 25 | .arrayTooLarge => 26 | .fuelOut => 255

/-- Provenance of a `float64_t` produced by `cbor_as_float64` (used by the
tag-1 datetime conversion); actual IEEE arithmetic is not modelled. -/
inductive FRep where
  | ofUint (n : Nat)
  | ofNint (n : Nat)
  | ofBits16 (bits : Nat)
  | ofBits32 (bits : Nat)
  | ofBits64 (bits : Nat)
  | ofRational (num : Int) (den : Nat)
deriving DecidableEq

/-- `cbor_value_t`: sub-stream views are carried as byte-list copies. -/
inductive CVal where
  | uint (v : Nat)
  | nint (v : Nat)
  | bytes (s : List Nat) (n : Nat)
  | text (s : List Nat) (n : Nat)
  | arr (s : List Nat) (n : Nat)
  | map (s : List Nat) (n : Nat)
  | tag (s : List Nat) (t : Nat)
  | simple (v : Nat)
  | boolv (b : Bool)
  | nullv
  | undef
  | f16 (bits : Nat)
  | f32 (bits : Nat)
  | f64 (bits : Nat)
  | datetime (r : FRep)
  | rational (num : Int) (den : Nat)
  | encoded (s : List Nat) (n : Nat)
deriving DecidableEq

/-- Big-endian accumulation of the extension bytes in `read_ext`. -/
def beVal (l : List Nat) : Nat := l.foldl (fun a b => a * 256 + b) 0

/-- `read_ext`: split the initial byte into major type and additional
info, then read the 1/2/4/8-byte big-endian argument for AI 24..27;
AI 31 is allowed only for major types 2, 3, 4, 5, 7. -/
def read_ext (s : List Nat) : Except CErr (Nat × Nat × Nat × List Nat) :=
  match s with
  | [] => .error .endOfStream
  | b :: rest =>
    let mt := b / 32
    let ai := b % 32
    if ai < 24 then .ok (mt, ai, ai, rest)
    else if ai < 28 then
      let k := 2 ^ (ai - 24)
      if rest.length < k then .error .endOfStream
      else .ok (mt, ai, beVal (rest.take k), rest.drop k)
    else if ai = 31 ∧ mt ≠ 0 ∧ mt ≠ 1 ∧ mt ≠ 6 then .ok (mt, ai, 0, rest)
    else .error .invalidAI

/-- Modelled from the spec: `is_valid_utf8` lives in `utf8valid.c`, which is
not among the sources; standard strict UTF-8 validation (no overlongs, no
surrogates, max U+10FFFF). -/
def validUtf8 : List Nat → Bool
  | [] => true
  | b :: rest =>
    if b < 0x80 then validUtf8 rest
    else if b < 0xC2 then false
    else if b < 0xE0 then
      match rest with
      | c1 :: r2 => if 0x80 ≤ c1 ∧ c1 < 0xC0 then validUtf8 r2 else false
      | [] => false
    else if b < 0xF0 then
      match rest with
      | c1 :: c2 :: r2 =>
        if (0x80 ≤ c1 ∧ c1 < 0xC0) ∧ (0x80 ≤ c2 ∧ c2 < 0xC0) ∧
            (b ≠ 0xE0 ∨ 0xA0 ≤ c1) ∧ (b ≠ 0xED ∨ c1 < 0xA0) then validUtf8 r2
        else false
      | _ => false
    else if b < 0xF5 then
      match rest with
      | c1 :: c2 :: c3 :: r2 =>
        if (0x80 ≤ c1 ∧ c1 < 0xC0) ∧ (0x80 ≤ c2 ∧ c2 < 0xC0) ∧
            (0x80 ≤ c3 ∧ c3 < 0xC0) ∧
            (b ≠ 0xF0 ∨ 0x90 ≤ c1) ∧ (b ≠ 0xF4 ∨ c1 < 0x90) then validUtf8 r2
        else false
      | _ => false
    else false

/-- C `memcmp` on byte lists: sign of the first difference. -/
def memcmpL : List Nat → List Nat → Int
  | [], _ => 0
  | _, [] => 0
  | x :: xs, y :: ys =>
    if x = y then memcmpL xs ys else if x < y then -1 else 1

theorem memcmpL_eq_zero (a b : List Nat) (h : a.length = b.length) :
    memcmpL a b = 0 ↔ a = b := by
  induction a generalizing b with
  | nil =>
    cases b with
    | nil => simp [memcmpL]
    | cons y ys => simp at h
  | cons x xs ih =>
    cases b with
    | nil => simp at h
    | cons y ys =>
      simp only [memcmpL]
      by_cases hxy : x = y
      · subst hxy
        rw [if_pos rfl]
        simp only [List.cons.injEq, true_and]
        exact ih ys (by simpa using h)
      · rw [if_neg hxy]
        constructor
        · intro hc
          split at hc <;> omega
        · intro hc
          exact absurd (List.cons.injEq .. ▸ hc).1 hxy

/-- `read_bytes_like` with `OP_LEN` in indefinite-chunk mode: every chunk
must share the parent's major type, must not itself be indefinite, and —
for text — must be valid UTF-8; the fuel is a bound on the number of
chunks (each consumes at least one byte). -/
def readBytesChunks (orig : Nat) : Nat → Nat → List Nat →
    Except (CErr × Bool) (Nat × List Nat)
  | 0, _, _ => .error (.fuelOut, false)
  | bd + 1, acc, s =>
    match read_ext s with
    | .error e => .error (e, true)
    | .ok (mt, ai, n, r) =>
      if mt = 7 ∧ ai = 31 then .ok (acc, r)
      else if mt ≠ orig then .error (.indefMismatch, true)
      else if ai = 31 then .error (.indefNesting, true)
      else if r.length < n then .error (.endOfStream, true)
      else if orig = 3 ∧ ¬ validUtf8 (r.take n) then .error (.invalidUtf8, true)
      else readBytesChunks orig bd (acc + n) (r.drop n)

/-- `read_bytes_like` with `OP_LEN`: single chunk for definite strings,
chunk loop for AI 31.  Returns the decoded length and the rest. -/
def readBytesLen (mt ai n : Nat) (s : List Nat) :
    Except (CErr × Bool) (Nat × List Nat) :=
  if ai = 31 then readBytesChunks mt (s.length + 1) 0 s
  else if s.length < n then .error (.endOfStream, true)
  else if mt = 3 ∧ ¬ validUtf8 (s.take n) then .error (.invalidUtf8, true)
  else .ok (n, s.drop n)

/-- `read_bytes_like` with `OP_CMP` in indefinite-chunk mode: compare the
key against successive chunks, early-returning a non-zero comparison. -/
def readBytesCmpChunks (orig : Nat) : Nat → List Nat → Nat → List Nat →
    Except (CErr × Bool) (Int × List Nat)
  | 0, _, _, _ => .error (.fuelOut, false)
  | bd + 1, kb, kn, s =>
    match read_ext s with
    | .error e => .error (e, true)
    | .ok (mt, ai, n, r) =>
      if mt = 7 ∧ ai = 31 then .ok (0, r)
      else if mt ≠ orig then .error (.indefMismatch, true)
      else if ai = 31 then .error (.indefNesting, true)
      else if r.length < n then .error (.endOfStream, true)
      else if kn < n then .error (.bufferTooSmall, true)
      else
        let c := memcmpL (kb.take n) (r.take n)
        if c ≠ 0 then .ok (c, r)
        else readBytesCmpChunks orig bd (kb.drop n) (kn - n) (r.drop n)

/-- `read_bytes_like` with `OP_CMP`: definite single chunk or chunk loop. -/
def readBytesCmp (key : List Nat) (kn : Nat) (mt ai n : Nat) (s : List Nat) :
    Except (CErr × Bool) (Int × List Nat) :=
  if ai = 31 then readBytesCmpChunks mt (s.length + 1) key kn s
  else if s.length < n then .error (.endOfStream, true)
  else if kn < n then .error (.bufferTooSmall, true)
  else
    let c := memcmpL (key.take n) (s.take n)
    if c ≠ 0 then .ok (c, s)
    else .ok (c, s.drop n)

/-- `cbor_memcmp(k, s, nb)`: returns the comparison result, or (per the
source) the raw error code of `read_ext`, or `256 + code` for a bad type
or a failure inside `read_bytes_like`. -/
def cbor_memcmp (b : List Nat) (s : List Nat) (nb : Nat) : Int :=
  match read_ext s with
  | .error e => (cErrCode e : Int)
  | .ok (mt, ai, n, r) =>
    if mt ≠ 2 ∧ mt ≠ 3 then 256 + (cErrCode .badType : Int)
    else
      match readBytesCmp b nb mt ai n r with
      | .error (e, _) => 256 + (cErrCode e : Int)
      | .ok (c, _) => c

/-- `cbor_as_int64`: range-checked conversion; a negative item with
argument `n` denotes `-(n+1)`. -/
def cbor_as_int64v (v : CVal) : Except CErr Int :=
  match v with
  | .uint u => if u > 0x7fffffffffffffff then .error .range else .ok (u : Int)
  | .nint u => if u > 0x7fffffffffffffff then .error .range
               else .ok (-(u : Int) - 1)
  | _ => .error .cantConvertType

/-- `cbor_as_uint64`. -/
def cbor_as_uint64v (v : CVal) : Except CErr Nat :=
  match v with
  | .uint u => .ok u
  | _ => .error .cantConvertType

/-- `cbor_as_float64`, at the provenance level (`CBOR_NO_DECIMAL` build). -/
def cbor_as_float64v (v : CVal) : Except CErr FRep :=
  match v with
  | .uint u => .ok (.ofUint u)
  | .nint u => .ok (.ofNint u)
  | .f16 bits => .ok (.ofBits16 bits)
  | .f32 bits => .ok (.ofBits32 bits)
  | .f64 bits => .ok (.ofBits64 bits)
  | .rational num den => .ok (.ofRational num den)
  | _ => .error .badFloat64

/-- `cvt_datetime_number` (tag 1). -/
def cvt_datetime_number (v2 : CVal) : Except CErr CVal :=
  (cbor_as_float64v v2).map (fun r => .datetime r)

/-- `cvt_encoded` (tag 24). -/
def cvt_encoded (v2 : CVal) : Except CErr CVal :=
  match v2 with
  | .bytes sl n => .ok (.encoded sl n)
  | _ => .error .badEncoded

/-- `cvt_rational` (tag 30) via `cvt_array_n`: the tagged item must be a
2-element array; the second element is the denominator (`uint64`, non-zero),
the first the numerator (`int64`).  The nested reads run on a local copy of
the array's sub-stream, so their errors are not sticky on the caller's
stream. -/
def cvt_rational (rd : List Nat → Nat → Except (CErr × Bool) (CVal × List Nat))
    (v2 : CVal) : Except CErr CVal :=
  match v2 with
  | .arr sl 2 =>
    match rd sl 0 with
    | .error (e, _) => .error e
    | .ok (a0, s1) =>
      match rd s1 0 with
      | .error (e, _) => .error e
      | .ok (a1, _) =>
        match cbor_as_uint64v a1 with
        | .error e => .error e
        | .ok den =>
          if den = 0 then .error .badRational
          else (cbor_as_int64v a0).map (fun num => .rational num den)
  | _ => .error .badRational

def CBOR_MAX_RECURSION : Nat := 4

/-- `size_t` is 32 bits on the target. -/
def SIZE_MAX : Nat := 2 ^ 32 - 1

/-- The `while (n-- > 0) CHECK(read_any(s, &my_v, depth+1))` loop of the
definite-length array/map case. -/
def readNChildren (rd : List Nat → Nat → Except (CErr × Bool) (CVal × List Nat))
    (depth : Nat) : Nat → List Nat → Except (CErr × Bool) (List Nat)
  | 0, s => .ok s
  | k + 1, s =>
    match rd s (depth + 1) with
    | .error e => .error e
    | .ok (_, s1) => readNChildren rd depth k s1

/-- The indefinite-length array/map loop: peek for the BREAK byte, else
read one child at `depth + 1`; the fuel is a bound on the item count
(each child consumes at least one byte). -/
def readIndef (rd : List Nat → Nat → Except (CErr × Bool) (CVal × List Nat))
    (depth : Nat) : Nat → Nat → List Nat → Except (CErr × Bool) (Nat × List Nat)
  | 0, _, _ => .error (.fuelOut, false)
  | bd + 1, cnt, s =>
    match s with
    | [] => .error (.endOfStream, true)
    | b :: _ =>
      if b / 32 = 7 ∧ b % 32 = 31 then .ok (cnt, s)
      else
        match rd s (depth + 1) with
        | .error e => .error e
        | .ok (_, s1) => readIndef rd depth bd (cnt + 1) s1

/-- `read_any(s, v, depth)`: the streaming reader.  The first argument is
recursion fuel, decremented at each nested `read_any`; the `cbor_read_any`
wrapper supplies `length + 1`, which suffices because every item consumes
at least one byte.  Sub-stream views are the byte slices the source
records via `start_b` / `s->b`.  The self-describe tag 55799 loops back to
the top (`goto read1`). -/
def readAnyF : Nat → List Nat → Nat → Except (CErr × Bool) (CVal × List Nat)
  | 0, _, _ => .error (.fuelOut, false)
  | f + 1, s, depth =>
    if depth > CBOR_MAX_RECURSION then .error (.recursion, true)
    else
      match read_ext s with
      | .error e => .error (e, true)
      | .ok (mt, ai, n, r1) =>
        let m := mt % 8
        if m = 0 then .ok (.uint n, r1)
        else if m = 1 then .ok (.nint n, r1)
        else if m = 2 ∨ m = 3 then
          match readBytesLen m ai n r1 with
          | .error e => .error e
          | .ok (len, r2) =>
            let slice := s.take (s.length - r2.length)
            .ok (if m = 2 then .bytes slice len else .text slice len, r2)
        else if m = 4 ∨ m = 5 then
          if ai = 31 then
            match readIndef (readAnyF f) depth (r1.length + 1) 0 r1 with
            | .error e => .error e
            | .ok (cnt, cur) =>
              let slice := r1.take (r1.length - cur.length)
              let rest := cur.drop 1
              if m = 5 then
                if cnt % 2 ≠ 0 then .error (.mapLength, true)
                else .ok (.map slice (cnt / 2), rest)
              else .ok (.arr slice cnt, rest)
          else if n > SIZE_MAX then .error (.itemTooLong, true)
          else
            let k := if m = 5 then n + n else n
            match readNChildren (readAnyF f) depth k r1 with
            | .error e => .error e
            | .ok r2 =>
              let slice := r1.take (r1.length - r2.length)
              .ok (if m = 5 then .map slice n else .arr slice n, r2)
        else if m = 6 then
          if n = 55799 then readAnyF f r1 depth
          else
            match readAnyF f r1 (depth + 1) with
            | .error e => .error e
            | .ok (mv, r2) =>
              if n = 1 then
                match cvt_datetime_number mv with
                | .error e => .error (e, false)
                | .ok v => .ok (v, r2)
              else if n = 24 then
                match cvt_encoded mv with
                | .error e => .error (e, false)
                | .ok v => .ok (v, r2)
              else if n = 30 then
                match cvt_rational (readAnyF f) mv with
                | .error e => .error (e, false)
                | .ok v => .ok (v, r2)
              else .ok (.tag r1 n, r2)
        else if m = 7 then
          if ai = 20 ∨ ai = 21 then .ok (.boolv (ai = 21), r1)
          else if ai = 22 then .ok (.nullv, r1)
          else if ai = 23 then .ok (.undef, r1)
          else if ai = 24 then
            if n > 255 then .error (.badSimpleValue, true)
            else if n < 32 then .error (.badSimpleValue, true)
            else .ok (.simple n, r1)
          else if ai = 25 then .ok (.f16 n, r1)
          else if ai = 26 then .ok (.f32 n, r1)
          else if ai = 27 then .ok (.f64 n, r1)
          else if ai = 28 ∨ ai = 29 ∨ ai = 30 then .error (.badSimpleValue, true)
          else if ai = 31 then .error (.unexpectedBreak, true)
          else .ok (.simple ai, r1)
        else .error (.internal1, true)

/-- `cbor_stream_t` for reading: remaining bytes plus sticky error. -/
structure CStream where
  rem : List Nat
  error : Option CErr
deriving DecidableEq

/-- `cbor_read_any(s, v)`: short-circuit on a sticky error, then read one
item at depth 0; `RET_ERROR`-style failures set the sticky error. -/
def cbor_read_any (st : CStream) : Except CErr CVal × CStream :=
  match st.error with
  | some e => (.error e, st)
  | none =>
    match readAnyF (st.rem.length + 1) st.rem 0 with
    | .error (e, sticky) =>
      (.error e, { st with error := if sticky then some e else none })
    | .ok (v, r) => (.ok v, { st with rem := r })

/-- One `cbor_read_any` on a plain byte list (as used on the local stream
copies inside `cbor_get_any`), errors projected. -/
def readTop (s : List Nat) : Except CErr (CVal × List Nat) :=
  (readAnyF (s.length + 1) s 0).mapError Prod.fst

/-- The scan loop of `cbor_get_any`: read one key item; when it is text of
the key's length and `cbor_memcmp` (run on the key item's own sub-stream
copy, which does not advance the scan) returns 0, read and return the next
item (the value); otherwise read one item to skip the value and continue
with the next pair. -/
def cbor_get_any_go (k : List Nat) : Nat → List Nat → Except CErr CVal
  | 0, _ => .error .keyNotFound
  | nn + 1, s2 =>
    match readTop s2 with
    | .error e => .error e
    | .ok (v, s3) =>
      match v with
      | .text sl vn =>
        if vn = k.length ∧ cbor_memcmp k sl k.length = 0 then
          match readTop s3 with
          | .error e => .error e
          | .ok (v2, _) => .ok v2
        else
          match readTop s3 with
          | .error e => .error e
          | .ok (_, s4) => cbor_get_any_go k nn s4
      | _ =>
        match readTop s3 with
        | .error e => .error e
        | .ok (_, s4) => cbor_get_any_go k nn s4

/-- `cbor_get_any(s, n, k, v)`: scan `n` key/value pairs of the map body
`s` (a local stream copy; the caller's stream is unchanged). -/
def cbor_get_any (s : List Nat) (n : Nat) (k : List Nat) : Except CErr CVal :=
  cbor_get_any_go k n s

/-! ### Writer (`write_mt_uint64` and friends) -/

/-- A write stream: bytes emitted so far and remaining capacity `s->n`. -/
structure WS where
  out : List Nat
  n : Nat
deriving DecidableEq

/-- `write_mt_uint64`: emit the initial byte and the shortest big-endian
argument for `v` — inline below 24, then 1, 2, 4 or 8 bytes. -/
def write_mt_uint64 (s : WS) (mt : Nat) (v : Nat) : Except CErr WS :=
  if v < 24 then
    if s.n < 1 then .error .endOfStream
    else .ok ⟨s.out ++ [(mt * 32 + v) % 256], s.n - 1⟩
  else if v < 256 then
    if s.n < 2 then .error .endOfStream
    else .ok ⟨s.out ++ [(mt * 32 + 24) % 256, v], s.n - 2⟩
  else if v < 65536 then
    if s.n < 3 then .error .endOfStream
    else .ok ⟨s.out ++ [(mt * 32 + 25) % 256, v / 2 ^ 8 % 256, v % 256], s.n - 3⟩
  else if v < 2 ^ 32 then
    if s.n < 5 then .error .endOfStream
    else .ok ⟨s.out ++ [(mt * 32 + 26) % 256,
      v / 2 ^ 24 % 256, v / 2 ^ 16 % 256, v / 2 ^ 8 % 256, v % 256], s.n - 5⟩
  else
    if s.n < 9 then .error .endOfStream
    else .ok ⟨s.out ++ [(mt * 32 + 27) % 256,
      v / 2 ^ 56 % 256, v / 2 ^ 48 % 256, v / 2 ^ 40 % 256, v / 2 ^ 32 % 256,
      v / 2 ^ 24 % 256, v / 2 ^ 16 % 256, v / 2 ^ 8 % 256, v % 256], s.n - 9⟩

/-- `write_mt_uint8`: a raw initial byte (indefinite starts, simple
values below 24, BREAK). -/
def write_mt_uint8 (s : WS) (mt : Nat) (ext : Nat) : Except CErr WS :=
  if s.n < 1 then .error .endOfStream
  else .ok ⟨s.out ++ [(mt * 32 + ext) % 256], s.n - 1⟩

/-- `write_mt_bytes`: length head then payload. -/
def write_mt_bytes (s : WS) (mt : Nat) (b : List Nat) : Except CErr WS :=
  match write_mt_uint64 s mt b.length with
  | .error e => .error e
  | .ok s1 =>
    if s1.n < b.length then .error .endOfStream
    else .ok ⟨s1.out ++ b, s1.n - b.length⟩

def cbor_write_uint64 (s : WS) (v : Nat) : Except CErr WS :=
  write_mt_uint64 s 0 v

/-- `cbor_write_int64`: non-negative as major 0, negative as major 1 with
argument `~v = -1 - v`. -/
def cbor_write_int64 (s : WS) (v : Int) : Except CErr WS :=
  if v ≥ 0 then write_mt_uint64 s 0 v.toNat
  else write_mt_uint64 s 1 (-1 - v).toNat

/-- `cbor_write_textn` on explicit bytes. -/
def cbor_write_textn (s : WS) (cs : List Nat) : Except CErr WS :=
  write_mt_bytes s 3 cs

def cbor_write_bytes (s : WS) (b : List Nat) : Except CErr WS :=
  write_mt_bytes s 2 b

def cbor_write_bool (s : WS) (b : Bool) : Except CErr WS :=
  write_mt_uint8 s 7 (if b then 21 else 20)

def cbor_write_null (s : WS) : Except CErr WS := write_mt_uint8 s 7 22

def cbor_write_undefined (s : WS) : Except CErr WS := write_mt_uint8 s 7 23

def cbor_write_array (s : WS) (n : Nat) : Except CErr WS :=
  write_mt_uint64 s 4 n

def cbor_write_map (s : WS) (n : Nat) : Except CErr WS :=
  write_mt_uint64 s 5 n

/-! ### C5: shortest-head encoding -/

/-- Additional info chosen by `write_mt_uint64` for argument `v`. -/
def headAI (v : Nat) : Nat :=
  if v < 24 then v else if v < 256 then 24 else if v < 65536 then 25
  else if v < 2 ^ 32 then 26 else 27

/-- The big-endian argument bytes emitted by `write_mt_uint64` after the
initial byte. -/
def argBytes (v : Nat) : List Nat :=
  if v < 24 then []
  else if v < 256 then [v]
  else if v < 65536 then [v / 2 ^ 8 % 256, v % 256]
  else if v < 2 ^ 32 then
    [v / 2 ^ 24 % 256, v / 2 ^ 16 % 256, v / 2 ^ 8 % 256, v % 256]
  else
    [v / 2 ^ 56 % 256, v / 2 ^ 48 % 256, v / 2 ^ 40 % 256, v / 2 ^ 32 % 256,
     v / 2 ^ 24 % 256, v / 2 ^ 16 % 256, v / 2 ^ 8 % 256, v % 256]

/-- The complete head `write_mt_uint64` emits for major type `mt` and
argument `v`. -/
def encHead (mt v : Nat) : List Nat :=
  (mt * 32 + headAI v) % 256 :: argBytes v

/-- Head length by argument range: 1, 2, 3, 5 or 9 bytes. -/
def headLen (v : Nat) : Nat :=
  if v < 24 then 1 else if v < 256 then 2 else if v < 65536 then 3
  else if v < 2 ^ 32 then 5 else 9

theorem write_mt_uint64_eq (s : WS) (mt v : Nat)
    (hn : (encHead mt v).length ≤ s.n) :
    write_mt_uint64 s mt v =
      .ok ⟨s.out ++ encHead mt v, s.n - (encHead mt v).length⟩ := by
  unfold encHead headAI argBytes at hn ⊢
  unfold write_mt_uint64
  split_ifs at hn ⊢ <;> first | rfl | (exfalso; simp at hn; omega)

theorem encHead_length (mt v : Nat) : (encHead mt v).length = headLen v := by
  unfold encHead headAI argBytes headLen
  split_ifs <;> rfl

theorem encHead_ne_nil (mt v : Nat) : encHead mt v ≠ [] := by
  unfold encHead
  exact List.cons_ne_nil _ _

/-- **C5.** For every unsigned 64-bit value `v`, `write_mt_uint64` emits the
shortest CBOR head: the argument is inline for `v < 24`, 1 byte for
`v < 256`, 2 bytes for `v < 65536`, 4 bytes for `v < 2^32` and 8 bytes
otherwise; the initial byte carries the major type and the chosen
additional info, the argument bytes are big-endian and decode back to `v`,
and each head length is used only when every shorter form is impossible.
`write_mt_bytes` applies the same head rule to the length prefix of byte
strings, text, and — through `cbor_write_array` / `cbor_write_map`, which
call `write_mt_uint64` directly — array and map counts. -/
theorem cbor_write_shortest (s : WS) (mt v : Nat) (b : List Nat)
    (hmt : mt < 8) (hv : v < 2 ^ 64) (hn : 9 + b.length ≤ s.n) :
    write_mt_uint64 s mt v =
      .ok ⟨s.out ++ encHead mt v, s.n - (encHead mt v).length⟩ ∧
    (encHead mt v).length = headLen v ∧
    (encHead mt v).headD 0 = mt * 32 + headAI v ∧
    (if v < 24 then (encHead mt v).headD 0 % 32 = v
     else beVal (encHead mt v).tail = v) ∧
    (headLen v = 1 ↔ v < 24) ∧
    (headLen v ≤ 2 ↔ v < 2 ^ 8) ∧
    (headLen v ≤ 3 ↔ v < 2 ^ 16) ∧
    (headLen v ≤ 5 ↔ v < 2 ^ 32) ∧
    headLen v ≤ 9 ∧
    write_mt_bytes s mt b =
      .ok ⟨s.out ++ encHead mt b.length ++ b,
           s.n - (encHead mt b.length).length - b.length⟩ := by
  have hl9 : ∀ w, headLen w ≤ 9 := by
    intro w; unfold headLen; split_ifs <;> omega
  have hcap : (encHead mt v).length ≤ s.n := by
    rw [encHead_length]; have := hl9 v; omega
  have h27 : headAI v ≤ 27 := by
    unfold headAI; split_ifs <;> omega
  refine ⟨write_mt_uint64_eq s mt v hcap, encHead_length mt v, ?_, ?_, ?_, ?_,
    ?_, ?_, hl9 v, ?_⟩
  · simp only [encHead, List.headD_cons]
    omega
  · unfold encHead headAI argBytes
    split_ifs with h1 h2 h3 h4
    · simp only [List.headD_cons]; omega
    · simp [beVal] <;> omega
    · simp [beVal] <;> omega
    · simp [beVal] <;> omega
    · simp [beVal] <;> omega
  · unfold headLen; split_ifs <;> omega
  · unfold headLen; split_ifs <;> omega
  · unfold headLen; split_ifs <;> omega
  · unfold headLen; split_ifs <;> omega
  · have hcapb : (encHead mt b.length).length ≤ s.n := by
      rw [encHead_length]; have := hl9 b.length; omega
    have hge : ¬ (s.n - (encHead mt b.length).length < b.length) := by
      rw [encHead_length]; have := hl9 b.length; omega
    unfold write_mt_bytes
    rw [write_mt_uint64_eq s mt b.length hcapb]
    dsimp only
    rw [if_neg hge]

theorem cbor_write_shortest_witness :
    write_mt_uint64 ⟨[], 11⟩ 0 25 =
      .ok ⟨[] ++ encHead 0 25, 11 - (encHead 0 25).length⟩ ∧
    (encHead 0 25).length = headLen 25 ∧
    (encHead 0 25).headD 0 = 0 * 32 + headAI 25 ∧
    (if 25 < 24 then (encHead 0 25).headD 0 % 32 = 25
     else beVal (encHead 0 25).tail = 25) ∧
    (headLen 25 = 1 ↔ 25 < 24) ∧
    (headLen 25 ≤ 2 ↔ 25 < 2 ^ 8) ∧
    (headLen 25 ≤ 3 ↔ 25 < 2 ^ 16) ∧
    (headLen 25 ≤ 5 ↔ 25 < 2 ^ 32) ∧
    headLen 25 ≤ 9 ∧
    write_mt_bytes ⟨[], 11⟩ 0 [7] =
      .ok ⟨[] ++ encHead 0 (List.length [7]) ++ [7],
           11 - (encHead 0 (List.length [7])).length - List.length [7]⟩ :=
  cbor_write_shortest ⟨[], 11⟩ 0 25 [7] (by decide) (by decide) (by decide)

/-- **C6.** For every negative int64 `v`, `cbor_write_int64` encodes major
type 1 with argument `~v = -1 - v` (the first two conjuncts), and the
reader's `cbor_as_int64` maps a negative item with argument `n` to
`-(n+1)` after an explicit range check that rejects `n ≥ 2^63` (third and
fourth conjuncts).  In particular packing `INT64_MIN` produces exactly the
initial byte `0x3B` (major 1, AI 27) followed by the big-endian argument
`0x7F 0xFF 0xFF 0xFF 0xFF 0xFF 0xFF 0xFF`, and reading that encoding back
yields `INT64_MIN` again. -/
theorem cbor_int64_min_roundtrip (s : WS) (v : Int)
    (hneg : v < 0) (hmin : -(2 ^ 63) ≤ v) (hn : 9 ≤ s.n) :
    cbor_write_int64 s v = write_mt_uint64 s 1 (-1 - v).toNat ∧
    cbor_write_int64 s v =
      .ok ⟨s.out ++ encHead 1 (-1 - v).toNat,
           s.n - (encHead 1 (-1 - v).toNat).length⟩ ∧
    cbor_as_int64v (.nint (-1 - v).toNat) = .ok v ∧
    (∀ m : Nat, 2 ^ 63 ≤ m → cbor_as_int64v (.nint m) = .error .range) ∧
    cbor_write_int64 ⟨[], 9⟩ (-(2 ^ 63)) =
      .ok ⟨[0x3B, 0x7F, 0xFF, 0xFF, 0xFF, 0xFF, 0xFF, 0xFF, 0xFF], 0⟩ ∧
    readTop [0x3B, 0x7F, 0xFF, 0xFF, 0xFF, 0xFF, 0xFF, 0xFF, 0xFF] =
      .ok (.nint (2 ^ 63 - 1), []) ∧
    cbor_as_int64v (.nint (2 ^ 63 - 1)) = .ok (-(2 ^ 63)) := by
  have hwr : cbor_write_int64 s v = write_mt_uint64 s 1 (-1 - v).toNat := by
    unfold cbor_write_int64
    rw [if_neg (by omega : ¬ v ≥ 0)]
  refine ⟨hwr, ?_, ?_, ?_, by decide, by decide, by decide⟩
  · rw [hwr]
    apply write_mt_uint64_eq
    rw [encHead_length]
    have : headLen ((-1 - v).toNat) ≤ 9 := by
      unfold headLen; split_ifs <;> omega
    omega
  · unfold cbor_as_int64v
    dsimp only
    rw [if_neg (by omega : ¬ ((-1 - v).toNat > 0x7fffffffffffffff))]
    have h0 : ((-1 - v).toNat : Int) = -1 - v := Int.toNat_of_nonneg (by omega)
    rw [h0]
    congr 1
    omega
  · intro m hm
    unfold cbor_as_int64v
    dsimp only
    rw [if_pos (by omega)]

theorem cbor_int64_min_roundtrip_witness :
    cbor_write_int64 ⟨[], 9⟩ (-5) = write_mt_uint64 ⟨[], 9⟩ 1 (-1 - (-5)).toNat ∧
    cbor_write_int64 ⟨[], 9⟩ (-5) =
      .ok ⟨[] ++ encHead 1 (-1 - (-5)).toNat,
           9 - (encHead 1 (-1 - (-5)).toNat).length⟩ ∧
    cbor_as_int64v (.nint (-1 - (-5)).toNat) = .ok (-5) ∧
    (∀ m : Nat, 2 ^ 63 ≤ m → cbor_as_int64v (.nint m) = .error .range) ∧
    cbor_write_int64 ⟨[], 9⟩ (-(2 ^ 63)) =
      .ok ⟨[0x3B, 0x7F, 0xFF, 0xFF, 0xFF, 0xFF, 0xFF, 0xFF, 0xFF], 0⟩ ∧
    readTop [0x3B, 0x7F, 0xFF, 0xFF, 0xFF, 0xFF, 0xFF, 0xFF, 0xFF] =
      .ok (.nint (2 ^ 63 - 1), []) ∧
    cbor_as_int64v (.nint (2 ^ 63 - 1)) = .ok (-(2 ^ 63)) :=
  cbor_int64_min_roundtrip ⟨[], 9⟩ (-5) (by decide) (by decide) (by decide)

/-! ### C7: recursion depth limit -/

theorem read_ext_0x81 (rest : List Nat) :
    read_ext (0x81 :: rest) = .ok (4, 1, 1, rest) := by
  simp [read_ext]

theorem read_ext_0x01 (rest : List Nat) :
    read_ext (0x01 :: rest) = .ok (0, 1, 1, rest) := by
  simp [read_ext]

/-- Value produced by reading `k` nested singleton arrays around `0x01`. -/
def nestVal : Nat → CVal
  | 0 => .uint 1
  | k + 1 => .arr (List.replicate k 0x81 ++ [0x01]) 1

theorem readAnyF_nest_ok (k : Nat) :
    ∀ (f d : Nat) (r : List Nat), d + k ≤ 4 → k < f →
      readAnyF f (List.replicate k 0x81 ++ 0x01 :: r) d = .ok (nestVal k, r) := by
  induction k with
  | zero =>
    intro f d r hd hf
    match f, hf with
    | f + 1, _ =>
      simp only [List.replicate, List.nil_append]
      simp only [readAnyF]
      rw [if_neg (by simp only [CBOR_MAX_RECURSION]; omega)]
      rw [read_ext_0x01]
      norm_num [nestVal]
  | succ k ih =>
    intro f d r hd hf
    match f, hf with
    | f + 1, _ =>
      simp only [List.replicate_succ, List.cons_append]
      simp only [readAnyF]
      rw [if_neg (by simp only [CBOR_MAX_RECURSION]; omega)]
      rw [read_ext_0x81]
      dsimp only
      norm_num [SIZE_MAX]
      have hch : readNChildren (readAnyF f) d 1
          (List.replicate k 0x81 ++ 0x01 :: r) = .ok r := by
        simp only [readNChildren]
        rw [ih f (d + 1) r (by omega) (by omega)]
      rw [hch]
      dsimp only
      have hidx : k + (r.length + 1) - r.length = k + 1 := by omega
      rw [hidx]
      have hsl : List.take (k + 1) (List.replicate k 0x81 ++ 0x01 :: r) =
          List.replicate k 0x81 ++ [0x01] := by
        rw [List.append_cons]
        have hlen : k + 1 = ((List.replicate k 0x81 ++ [0x01])).length := by simp
        rw [hlen, List.take_left]
      rw [hsl]
      simp [nestVal]

theorem readAnyF_nest_err (k : Nat) :
    ∀ (f d : Nat) (r : List Nat), d + k = 5 → k < f →
      readAnyF f (List.replicate k 0x81 ++ r) d = .error (.recursion, true) := by
  induction k with
  | zero =>
    intro f d r hd hf
    match f, hf with
    | f + 1, _ =>
      simp only [List.replicate, List.nil_append]
      simp only [readAnyF]
      rw [if_pos (by simp only [CBOR_MAX_RECURSION]; omega)]
  | succ k ih =>
    intro f d r hd hf
    match f, hf with
    | f + 1, _ =>
      simp only [List.replicate_succ, List.cons_append]
      simp only [readAnyF]
      rw [if_neg (by simp only [CBOR_MAX_RECURSION]; omega)]
      rw [read_ext_0x81]
      dsimp only
      norm_num [SIZE_MAX]
      have hch : readNChildren (readAnyF f) d 1
          (List.replicate k 0x81 ++ r) = .error (.recursion, true) := by
        simp only [readNChildren]
        rw [ih f (d + 1) r (by omega) (by omega)]
      rw [hch]

/-- **C7.** `read_any` checks the recursion depth (number of enclosing
containers, 0 at top level) against `CBOR_MAX_RECURSION = 4` on entry.
Conjunct 1: an item nested so that no read exceeds depth 4 (here `k`
singleton arrays around a uint, started at depth `d` with `d + k ≤ 4`)
parses successfully.  Conjunct 2: as soon as a read is attempted at depth
5 — i.e. on any item enclosed in more than 4 containers, whatever follows
— it fails with the recursion error and the sticky flag.  Conjuncts 3 and
4 restate both at the `cbor_read_any` wrapper: depth-4 nesting succeeds
and leaves no sticky error, five nested non-empty containers fail with
`CBOR_ERROR_RECURSION` left sticky on the stream. -/
theorem cbor_read_any_recursion_limit :
    (∀ (k f d : Nat) (r : List Nat), d + k ≤ 4 → k < f →
      readAnyF f (List.replicate k 0x81 ++ 0x01 :: r) d = .ok (nestVal k, r)) ∧
    (∀ (k f d : Nat) (r : List Nat), d + k = 5 → k < f →
      readAnyF f (List.replicate k 0x81 ++ r) d = .error (.recursion, true)) ∧
    (∀ r : List Nat, cbor_read_any ⟨List.replicate 4 0x81 ++ 0x01 :: r, none⟩ =
      (.ok (nestVal 4), ⟨r, none⟩)) ∧
    (∀ r : List Nat, cbor_read_any ⟨List.replicate 5 0x81 ++ r, none⟩ =
      (.error .recursion, ⟨List.replicate 5 0x81 ++ r, some .recursion⟩)) := by
  refine ⟨fun k f d r h1 h2 => readAnyF_nest_ok k f d r h1 h2,
          fun k f d r h1 h2 => readAnyF_nest_err k f d r h1 h2, ?_, ?_⟩
  · intro r
    unfold cbor_read_any
    dsimp only
    rw [readAnyF_nest_ok 4 _ 0 r (by omega) (by simp)]
  · intro r
    unfold cbor_read_any
    dsimp only
    rw [readAnyF_nest_err 5 _ 0 r (by omega) (by simp)]
    rfl

theorem cbor_read_any_recursion_limit_witness :
    cbor_read_any ⟨List.replicate 4 0x81 ++ 0x01 :: [], none⟩ =
      (.ok (nestVal 4), ⟨[], none⟩) ∧
    cbor_read_any ⟨List.replicate 5 0x81 ++ [0x01], none⟩ =
      (.error .recursion, ⟨List.replicate 5 0x81 ++ [0x01], some .recursion⟩) :=
  ⟨cbor_read_any_recursion_limit.2.2.1 [],
   cbor_read_any_recursion_limit.2.2.2 [0x01]⟩

/-! ### C4: encoder-written maps and `cbor_get_any` -/

mutual
/-- Items the application can emit through the `cbor_write_*` functions
(definite lengths only, as the writer produces). -/
inductive EncItem : Type where
  | euint (v : Nat)
  | eint (v : Int)
  | etext (cs : List Nat)
  | ebytes (b : List Nat)
  | ebool (b : Bool)
  | enull
  | eundef
  | earr (items : EncList)
  | emap (kvs : EncList)
inductive EncList : Type where
  | lnil
  | lcons (hd : EncItem) (tl : EncList)
end

def EncList.len : EncList → Nat
  | .lnil => 0
  | .lcons _ tl => tl.len + 1

mutual
/-- Bytes the writer emits for an item; each case mirrors the
corresponding `cbor_write_*` path through `write_mt_uint64` /
`write_mt_bytes` / `write_mt_uint8` (proved below as `writeItem_enc`). -/
def enc : EncItem → List Nat
  | .euint v => encHead 0 v
  | .eint v => if v ≥ 0 then encHead 0 v.toNat else encHead 1 (-1 - v).toNat
  | .etext cs => encHead 3 cs.length ++ cs
  | .ebytes b => encHead 2 b.length ++ b
  | .ebool b => [7 * 32 + if b then 21 else 20]
  | .enull => [7 * 32 + 22]
  | .eundef => [7 * 32 + 23]
  | .earr items => encHead 4 items.len ++ encL items
  | .emap kvs => encHead 5 (kvs.len / 2) ++ encL kvs
def encL : EncList → List Nat
  | .lnil => []
  | .lcons i is => enc i ++ encL is
end

mutual
/-- Conditions under which an item read back at depth `d` succeeds: the
depth limit, the int64/uint64 value ranges, UTF-8 validity of text, map
bodies of even length, and the `SIZE_MAX` container checks. -/
def itemOK : Nat → EncItem → Bool
  | d, .euint v => decide (d ≤ 4) && decide (v < 2 ^ 64)
  | d, .eint v => decide (d ≤ 4) && decide (-(2 ^ 63) ≤ v) && decide (v < 2 ^ 63)
  | d, .etext cs => decide (d ≤ 4) && validUtf8 cs && decide (cs.length < 2 ^ 64)
  | d, .ebytes b => decide (d ≤ 4) && decide (b.length < 2 ^ 64)
  | d, .ebool _ => decide (d ≤ 4)
  | d, .enull => decide (d ≤ 4)
  | d, .eundef => decide (d ≤ 4)
  | d, .earr items =>
    decide (d ≤ 4) && decide (items.len ≤ SIZE_MAX) && listOK (d + 1) items
  | d, .emap kvs =>
    decide (d ≤ 4) && decide (kvs.len % 2 = 0) &&
      decide (kvs.len / 2 ≤ SIZE_MAX) && listOK (d + 1) kvs
def listOK : Nat → EncList → Bool
  | _, .lnil => true
  | d, .lcons i is => itemOK d i && listOK d is
end

/-- The `cbor_value_t` the reader returns for an encoder-written item. -/
def toVal : EncItem → CVal
  | .euint v => .uint v
  | .eint v => if v ≥ 0 then .uint v.toNat else .nint (-1 - v).toNat
  | .etext cs => .text (encHead 3 cs.length ++ cs) cs.length
  | .ebytes b => .bytes (encHead 2 b.length ++ b) b.length
  | .ebool b => .boolv b
  | .enull => .nullv
  | .eundef => .undef
  | .earr items => .arr (encL items) items.len
  | .emap kvs => .map (encL kvs) (kvs.len / 2)

theorem headAI_le (v : Nat) : headAI v ≤ 27 := by
  unfold headAI; split_ifs <;> omega

set_option maxRecDepth 8192 in
theorem read_ext_encHead (mt v : Nat) (rest : List Nat)
    (hmt : mt < 8) (hv : v < 2 ^ 64) :
    read_ext (encHead mt v ++ rest) = .ok (mt, headAI v, v, rest) := by
  unfold encHead headAI argBytes
  split_ifs with h1 h2 h3 h4
  · have hb : (mt * 32 + v) % 256 = mt * 32 + v := by omega
    simp only [List.cons_append, List.nil_append, read_ext, hb]
    rw [if_pos (by omega : (mt * 32 + v) % 32 < 24)]
    have hq : (mt * 32 + v) / 32 = mt := by omega
    have hr : (mt * 32 + v) % 32 = v := by omega
    rw [hq, hr]
  · have hb : (mt * 32 + 24) % 256 = mt * 32 + 24 := by omega
    simp only [List.cons_append, read_ext, hb]
    have hr : (mt * 32 + 24) % 32 = 24 := by omega
    have hq : (mt * 32 + 24) / 32 = mt := by omega
    rw [hr, hq]
    rw [if_neg (by omega : ¬ (24 : Nat) < 24), if_pos (by omega : (24 : Nat) < 28)]
    norm_num
    simp only [beVal, List.foldl_cons, List.foldl_nil, Except.ok.injEq,
      Prod.mk.injEq, true_and, and_true]
    omega
  · have hb : (mt * 32 + 25) % 256 = mt * 32 + 25 := by omega
    simp only [List.cons_append, read_ext, hb]
    have hr : (mt * 32 + 25) % 32 = 25 := by omega
    have hq : (mt * 32 + 25) / 32 = mt := by omega
    rw [hr, hq]
    rw [if_neg (by omega : ¬ (25 : Nat) < 24), if_pos (by omega : (25 : Nat) < 28)]
    norm_num
    rw [if_neg (by omega)]
    simp only [beVal, List.foldl_cons, List.foldl_nil, Except.ok.injEq,
      Prod.mk.injEq, true_and, and_true]
    omega
  · have hb : (mt * 32 + 26) % 256 = mt * 32 + 26 := by omega
    simp only [List.cons_append, read_ext, hb]
    have hr : (mt * 32 + 26) % 32 = 26 := by omega
    have hq : (mt * 32 + 26) / 32 = mt := by omega
    rw [hr, hq]
    rw [if_neg (by omega : ¬ (26 : Nat) < 24), if_pos (by omega : (26 : Nat) < 28)]
    norm_num
    rw [if_neg (by omega)]
    simp only [beVal, List.foldl_cons, List.foldl_nil, Except.ok.injEq,
      Prod.mk.injEq, true_and, and_true]
    omega
  · have hb : (mt * 32 + 27) % 256 = mt * 32 + 27 := by omega
    simp only [List.cons_append, read_ext, hb]
    have hr : (mt * 32 + 27) % 32 = 27 := by omega
    have hq : (mt * 32 + 27) / 32 = mt := by omega
    rw [hr, hq]
    rw [if_neg (by omega : ¬ (27 : Nat) < 24), if_pos (by omega : (27 : Nat) < 28)]
    norm_num
    rw [if_neg (by omega)]
    simp only [beVal, List.foldl_cons, List.foldl_nil, Except.ok.injEq,
      Prod.mk.injEq, true_and, and_true]
    omega


theorem encHead_length_pos (mt v : Nat) : 0 < (encHead mt v).length := by
  simp [encHead]

theorem readBytesLen_exact (mt ai : Nat) (cs rest : List Nat)
    (hai : ai ≠ 31) (hutf : mt = 3 → validUtf8 cs = true) :
    readBytesLen mt ai cs.length (cs ++ rest) = .ok (cs.length, rest) := by
  unfold readBytesLen
  rw [if_neg hai,
    if_neg (by rw [List.length_append]; omega : ¬ (cs ++ rest).length < cs.length),
    List.take_left, List.drop_left]
  rw [if_neg]
  intro hc
  exact hc.2 (hutf hc.1)

theorem readNChildren_encL (f : Nat)
    (IH : ∀ (it : EncItem) (d : Nat) (r : List Nat),
      itemOK d it = true → (enc it).length < f →
      readAnyF f (enc it ++ r) d = .ok (toVal it, r)) :
    ∀ (items : EncList) (d : Nat) (r : List Nat),
      listOK (d + 1) items = true → (encL items).length < f →
      readNChildren (readAnyF f) d items.len (encL items ++ r) = .ok r
  | .lnil, d, r, _, _ => by
    simp [EncList.len, encL, readNChildren]
  | .lcons i is, d, r, hok, hlen => by
    simp only [listOK, Bool.and_eq_true] at hok
    simp only [encL, List.length_append] at hlen
    simp only [EncList.len, encL]
    rw [List.append_assoc]
    simp only [readNChildren]
    rw [IH i (d + 1) (encL is ++ r) hok.1 (by omega)]
    exact readNChildren_encL f IH is d r hok.2 (by omega)

set_option maxRecDepth 8192 in
theorem readAnyF_enc (f : Nat) :
    ∀ (it : EncItem) (d : Nat) (r : List Nat),
      itemOK d it = true → (enc it).length < f →
      readAnyF f (enc it ++ r) d = .ok (toVal it, r) := by
  induction f with
  | zero => intro it d r _ h; omega
  | succ f ih =>
    intro it d r hok hlen
    cases it with
    | euint v =>
      simp only [itemOK, Bool.and_eq_true, decide_eq_true_eq] at hok
      simp only [enc, toVal]
      simp only [readAnyF]
      rw [if_neg (by simp only [CBOR_MAX_RECURSION]; omega : ¬ d > CBOR_MAX_RECURSION)]
      rw [read_ext_encHead 0 v r (by omega) hok.2]
      norm_num
    | eint v =>
      simp only [itemOK, Bool.and_eq_true, decide_eq_true_eq] at hok
      by_cases hv0 : v ≥ 0
      · simp only [enc, toVal, if_pos hv0]
        simp only [readAnyF]
        rw [if_neg (by simp only [CBOR_MAX_RECURSION]; omega : ¬ d > CBOR_MAX_RECURSION)]
        rw [read_ext_encHead 0 v.toNat r (by omega) (by omega)]
        norm_num
      · simp only [enc, toVal, if_neg hv0]
        simp only [readAnyF]
        rw [if_neg (by simp only [CBOR_MAX_RECURSION]; omega : ¬ d > CBOR_MAX_RECURSION)]
        rw [read_ext_encHead 1 (-1 - v).toNat r (by omega) (by omega)]
        norm_num
    | etext cs =>
      simp only [itemOK, Bool.and_eq_true, decide_eq_true_eq] at hok
      simp only [enc, toVal]
      rw [List.append_assoc]
      simp only [readAnyF]
      rw [if_neg (by simp only [CBOR_MAX_RECURSION]; omega : ¬ d > CBOR_MAX_RECURSION)]
      rw [read_ext_encHead 3 cs.length (cs ++ r) (by omega) hok.2]
      dsimp only
      norm_num
      rw [readBytesLen_exact 3 (headAI cs.length) cs r
        (by have := headAI_le cs.length; omega) (fun _ => hok.1.2)]
      dsimp only
      have hl2 : (encHead 3 cs.length).length + (cs.length + r.length) - r.length
          = (encHead 3 cs.length).length + cs.length := by omega
      rw [hl2, ← List.append_assoc]
      have hl3 : (encHead 3 cs.length).length + cs.length
          = (encHead 3 cs.length ++ cs).length := by
        simp [List.length_append]
      rw [hl3, List.take_left]
    | ebytes b =>
      simp only [itemOK, Bool.and_eq_true, decide_eq_true_eq] at hok
      simp only [enc, toVal]
      rw [List.append_assoc]
      simp only [readAnyF]
      rw [if_neg (by simp only [CBOR_MAX_RECURSION]; omega : ¬ d > CBOR_MAX_RECURSION)]
      rw [read_ext_encHead 2 b.length (b ++ r) (by omega) hok.2]
      dsimp only
      norm_num
      rw [readBytesLen_exact 2 (headAI b.length) b r
        (by have := headAI_le b.length; omega) (by omega)]
      dsimp only
      have hl2 : (encHead 2 b.length).length + (b.length + r.length) - r.length
          = (encHead 2 b.length).length + b.length := by omega
      rw [hl2, ← List.append_assoc]
      have hl3 : (encHead 2 b.length).length + b.length
          = (encHead 2 b.length ++ b).length := by
        simp [List.length_append]
      rw [hl3, List.take_left]
    | ebool b =>
      simp only [itemOK, decide_eq_true_eq] at hok
      cases b
      · simp only [enc, toVal, Bool.false_eq_true, if_neg]
        norm_num
        simp only [readAnyF]
        rw [if_neg (by simp only [CBOR_MAX_RECURSION]; omega : ¬ d > CBOR_MAX_RECURSION)]
        have hre : read_ext (244 :: r) = .ok (7, 20, 20, r) := by
          simp [read_ext]
        rw [hre]
        norm_num
      · simp only [enc, toVal, if_pos]
        norm_num
        simp only [readAnyF]
        rw [if_neg (by simp only [CBOR_MAX_RECURSION]; omega : ¬ d > CBOR_MAX_RECURSION)]
        have hre : read_ext (245 :: r) = .ok (7, 21, 21, r) := by
          simp [read_ext]
        rw [hre]
        norm_num
    | enull =>
      simp only [itemOK, decide_eq_true_eq] at hok
      simp only [enc, toVal]
      norm_num
      simp only [readAnyF]
      rw [if_neg (by simp only [CBOR_MAX_RECURSION]; omega : ¬ d > CBOR_MAX_RECURSION)]
      have hre : read_ext (246 :: r) = .ok (7, 22, 22, r) := by
        simp [read_ext]
      rw [hre]
      norm_num
    | eundef =>
      simp only [itemOK, decide_eq_true_eq] at hok
      simp only [enc, toVal]
      norm_num
      simp only [readAnyF]
      rw [if_neg (by simp only [CBOR_MAX_RECURSION]; omega : ¬ d > CBOR_MAX_RECURSION)]
      have hre : read_ext (247 :: r) = .ok (7, 23, 23, r) := by
        simp [read_ext]
      rw [hre]
      norm_num
    | earr items =>
      simp only [itemOK, Bool.and_eq_true, decide_eq_true_eq] at hok
      have hsz : items.len ≤ SIZE_MAX := hok.1.2
      have hsz64 : items.len < 2 ^ 64 := by
        simp only [SIZE_MAX] at hsz; omega
      simp only [enc, toVal]
      rw [List.append_assoc]
      simp only [readAnyF]
      rw [if_neg (by simp only [CBOR_MAX_RECURSION]; omega : ¬ d > CBOR_MAX_RECURSION)]
      rw [read_ext_encHead 4 items.len (encL items ++ r) (by omega) hsz64]
      dsimp only
      norm_num
      rw [if_neg (by have := headAI_le items.len; omega : ¬ headAI items.len = 31)]
      rw [if_neg (by omega : ¬ items.len > SIZE_MAX)]
      have hchl : (encL items).length < f := by
        simp only [enc, List.length_append] at hlen
        have := encHead_length_pos 4 items.len
        omega
      rw [readNChildren_encL f ih items d r hok.2 hchl]
      dsimp only
      have hl2 : (encL items).length + r.length - r.length = (encL items).length := by
        omega
      rw [hl2, List.take_left]
    | emap kvs =>
      simp only [itemOK, Bool.and_eq_true, decide_eq_true_eq] at hok
      have hsz : kvs.len / 2 ≤ SIZE_MAX := hok.1.2
      have hsz64 : kvs.len / 2 < 2 ^ 64 := by
        simp only [SIZE_MAX] at hsz; omega
      simp only [enc, toVal]
      rw [List.append_assoc]
      simp only [readAnyF]
      rw [if_neg (by simp only [CBOR_MAX_RECURSION]; omega : ¬ d > CBOR_MAX_RECURSION)]
      rw [read_ext_encHead 5 (kvs.len / 2) (encL kvs ++ r) (by omega) hsz64]
      dsimp only
      norm_num
      rw [if_neg (by have := headAI_le (kvs.len / 2); omega : ¬ headAI (kvs.len / 2) = 31)]
      rw [if_neg (by omega : ¬ kvs.len / 2 > SIZE_MAX)]
      have h2 : kvs.len / 2 + kvs.len / 2 = kvs.len := by
        have := hok.1.1.2
        omega
      rw [h2]
      have hchl : (encL kvs).length < f := by
        simp only [enc, List.length_append] at hlen
        have := encHead_length_pos 5 (kvs.len / 2)
        omega
      rw [readNChildren_encL f ih kvs d r hok.2 hchl]
      dsimp only
      have hl2 : (encL kvs).length + r.length - r.length = (encL kvs).length := by
        omega
      rw [hl2, List.take_left]

theorem readTop_enc (it : EncItem) (r : List Nat) (hok : itemOK 0 it = true) :
    readTop (enc it ++ r) = .ok (toVal it, r) := by
  unfold readTop
  rw [readAnyF_enc ((enc it ++ r).length + 1) it 0 r hok
    (by simp only [List.length_append]; omega)]
  rfl

theorem memcmpL_refl (l : List Nat) : memcmpL l l = 0 := by
  induction l with
  | nil => rfl
  | cons x xs ih => simp [memcmpL, ih]

theorem cbor_memcmp_encKey (k cs : List Nat) (hlen : cs.length = k.length)
    (hv : cs.length < 2 ^ 64) :
    cbor_memcmp k (encHead 3 cs.length ++ cs) k.length = memcmpL k cs := by
  unfold cbor_memcmp
  rw [read_ext_encHead 3 cs.length cs (by omega) hv]
  dsimp only
  rw [if_neg (by norm_num)]
  unfold readBytesCmp
  rw [if_neg (by have := headAI_le cs.length; omega : ¬ headAI cs.length = 31)]
  rw [if_neg (by omega : ¬ cs.length < cs.length)]
  rw [if_neg (by omega : ¬ k.length < cs.length)]
  have h1 : k.take cs.length = k := by
    rw [hlen]; exact List.take_length k
  have h2 : cs.take cs.length = cs := List.take_length cs
  rw [h1, h2]
  dsimp only
  by_cases hc : memcmpL k cs = 0
  · rw [if_neg (by simp [hc])]
  · rw [if_pos hc]

/-- The byte sequence of `n` key/value pairs as the encoder writes them:
each key as a definite-length text item, each value immediately after. -/
def encPairs : List (List Nat × EncItem) → List Nat
  | [] => []
  | (k, v) :: ps => enc (.etext k) ++ (enc v ++ encPairs ps)

/-- A pair the scanner can process: the key a readable text item, the
value a readable item, both at depth 0 (the scan reads the map body on a
stream copy, so items sit at top level there). -/
def pairOK (p : List Nat × EncItem) : Bool :=
  itemOK 0 (.etext p.1) && itemOK 0 p.2

theorem cbor_get_any_go_spec :
    ∀ (pairs : List (List Nat × EncItem)) (j : Nat) (k : List Nat)
      (hok : ∀ p ∈ pairs, pairOK p = true)
      (hj : j < pairs.length),
      (pairs.get ⟨j, hj⟩).1 = k →
      (∀ i (hi : i < j), (pairs.get ⟨i, by omega⟩).1 ≠ k) →
      cbor_get_any_go k pairs.length (encPairs pairs) =
        .ok (toVal (pairs.get ⟨j, hj⟩).2) := by
  intro pairs
  induction pairs with
  | nil =>
    intro j k _ hj
    simp at hj
  | cons p ps ih =>
    intro j k hok hj hkey hfirst
    obtain ⟨k0, v0⟩ := p
    have hokp : pairOK (k0, v0) = true := hok _ (List.mem_cons_self _ _)
    simp only [pairOK, Bool.and_eq_true] at hokp
    have hk64 : k0.length < 2 ^ 64 := by
      have := hokp.1
      simp only [itemOK, Bool.and_eq_true, decide_eq_true_eq] at this
      exact this.2
    simp only [encPairs, List.length_cons]
    simp only [cbor_get_any_go]
    rw [readTop_enc (.etext k0) (enc v0 ++ encPairs ps) hokp.1]
    have htv : toVal (.etext k0) = .text (encHead 3 k0.length ++ k0) k0.length := rfl
    rw [htv]
    dsimp only
    cases j with
    | zero =>
      simp only [List.get] at hkey ⊢
      subst hkey
      rw [if_pos ⟨rfl, by
        rw [cbor_memcmp_encKey k0 k0 rfl hk64]; exact memcmpL_refl k0⟩]
      rw [readTop_enc v0 (encPairs ps) hokp.2]
    | succ j =>
      simp only [List.get] at hkey ⊢
      have hne : k0 ≠ k := by
        have := hfirst 0 (by omega)
        simpa using this
      rw [if_neg (by
        rintro ⟨hl, hm⟩
        rw [cbor_memcmp_encKey k k0 hl hk64] at hm
        exact hne ((memcmpL_eq_zero k k0 hl.symm).mp hm).symm)]
      rw [readTop_enc v0 (encPairs ps) hokp.2]
      exact ih j k (fun p hp => hok p (List.mem_cons_of_mem _ hp))
        (by have := hj; simp only [List.length_cons] at this; omega) hkey
        (fun i hi => by have := hfirst (i + 1) (by omega); simpa using this)

mutual
/-- Write one item through the source's `cbor_write_*` functions. -/
def writeItem : WS → EncItem → Except CErr WS
  | s, .euint v => cbor_write_uint64 s v
  | s, .eint v => cbor_write_int64 s v
  | s, .etext cs => cbor_write_textn s cs
  | s, .ebytes b => cbor_write_bytes s b
  | s, .ebool b => cbor_write_bool s b
  | s, .enull => cbor_write_null s
  | s, .eundef => cbor_write_undefined s
  | s, .earr items =>
    match cbor_write_array s items.len with
    | .error e => .error e
    | .ok s1 => writeL s1 items
  | s, .emap kvs =>
    match cbor_write_map s (kvs.len / 2) with
    | .error e => .error e
    | .ok s1 => writeL s1 kvs
def writeL : WS → EncList → Except CErr WS
  | s, .lnil => .ok s
  | s, .lcons i is =>
    match writeItem s i with
    | .error e => .error e
    | .ok s1 => writeL s1 is
end

/-- Write `n` key/value pairs: each key with `cbor_write_textn`, then the
value. -/
def writePairs : WS → List (List Nat × EncItem) → Except CErr WS
  | s, [] => .ok s
  | s, (k, v) :: ps =>
    match cbor_write_textn s k with
    | .error e => .error e
    | .ok s1 =>
      match writeItem s1 v with
      | .error e => .error e
      | .ok s2 => writePairs s2 ps

theorem write_mt_bytes_eq (s : WS) (mt : Nat) (b : List Nat)
    (hn : (encHead mt b.length).length + b.length ≤ s.n) :
    write_mt_bytes s mt b =
      .ok ⟨s.out ++ (encHead mt b.length ++ b),
           s.n - ((encHead mt b.length).length + b.length)⟩ := by
  unfold write_mt_bytes
  rw [write_mt_uint64_eq s mt b.length (by omega)]
  dsimp only
  rw [if_neg (by omega : ¬ s.n - (encHead mt b.length).length < b.length)]
  simp only [Except.ok.injEq, WS.mk.injEq]
  exact ⟨List.append_assoc _ _ _, by omega⟩

mutual
theorem writeItem_enc : ∀ (it : EncItem) (s : WS), (enc it).length ≤ s.n →
    writeItem s it = .ok ⟨s.out ++ enc it, s.n - (enc it).length⟩
  | .euint v, s, hn => by
    simp only [enc] at hn ⊢
    simp only [writeItem, cbor_write_uint64]
    exact write_mt_uint64_eq s 0 v hn
  | .eint v, s, hn => by
    simp only [enc] at hn ⊢
    simp only [writeItem, cbor_write_int64]
    by_cases h : v ≥ 0
    · rw [if_pos h] at hn ⊢
      rw [if_pos h]
      exact write_mt_uint64_eq s 0 v.toNat hn
    · rw [if_neg h] at hn ⊢
      rw [if_neg h]
      exact write_mt_uint64_eq s 1 (-1 - v).toNat hn
  | .etext cs, s, hn => by
    simp only [enc, List.length_append] at hn ⊢
    simp only [writeItem, cbor_write_textn]
    exact write_mt_bytes_eq s 3 cs hn
  | .ebytes b, s, hn => by
    simp only [enc, List.length_append] at hn ⊢
    simp only [writeItem, cbor_write_bytes]
    exact write_mt_bytes_eq s 2 b hn
  | .ebool b, s, hn => by
    simp only [enc, List.length_cons, List.length_nil] at hn ⊢
    simp only [writeItem, cbor_write_bool, write_mt_uint8]
    rw [if_neg (by omega : ¬ s.n < 1)]
    cases b <;> norm_num
  | .enull, s, hn => by
    simp only [enc, List.length_cons, List.length_nil] at hn ⊢
    simp only [writeItem, cbor_write_null, write_mt_uint8]
    rw [if_neg (by omega : ¬ s.n < 1)]
  | .eundef, s, hn => by
    simp only [enc, List.length_cons, List.length_nil] at hn ⊢
    simp only [writeItem, cbor_write_undefined, write_mt_uint8]
    rw [if_neg (by omega : ¬ s.n < 1)]
  | .earr items, s, hn => by
    simp only [enc, List.length_append] at hn ⊢
    simp only [writeItem, cbor_write_array]
    rw [write_mt_uint64_eq s 4 items.len (by omega)]
    dsimp only
    rw [writeL_enc items ⟨s.out ++ encHead 4 items.len,
      s.n - (encHead 4 items.len).length⟩ (by dsimp only; omega)]
    simp only [Except.ok.injEq, WS.mk.injEq]
    exact ⟨List.append_assoc _ _ _, by omega⟩
  | .emap kvs, s, hn => by
    simp only [enc, List.length_append] at hn ⊢
    simp only [writeItem, cbor_write_map]
    rw [write_mt_uint64_eq s 5 (kvs.len / 2) (by omega)]
    dsimp only
    rw [writeL_enc kvs ⟨s.out ++ encHead 5 (kvs.len / 2),
      s.n - (encHead 5 (kvs.len / 2)).length⟩ (by dsimp only; omega)]
    simp only [Except.ok.injEq, WS.mk.injEq]
    exact ⟨List.append_assoc _ _ _, by omega⟩
theorem writeL_enc : ∀ (items : EncList) (s : WS), (encL items).length ≤ s.n →
    writeL s items = .ok ⟨s.out ++ encL items, s.n - (encL items).length⟩
  | .lnil, s, _ => by
    simp [writeL, encL]
  | .lcons i is, s, hn => by
    simp only [encL, List.length_append] at hn ⊢
    simp only [writeL]
    rw [writeItem_enc i s (by omega)]
    dsimp only
    rw [writeL_enc is ⟨s.out ++ enc i, s.n - (enc i).length⟩ (by dsimp only; omega)]
    simp only [Except.ok.injEq, WS.mk.injEq]
    exact ⟨List.append_assoc _ _ _, by omega⟩
end

theorem writePairs_enc : ∀ (pairs : List (List Nat × EncItem)) (s : WS),
    (encPairs pairs).length ≤ s.n →
    writePairs s pairs =
      .ok ⟨s.out ++ encPairs pairs, s.n - (encPairs pairs).length⟩
  | [], s, _ => by simp [writePairs, encPairs]
  | (k, v) :: ps, s, hn => by
    simp only [encPairs, List.length_append] at hn ⊢
    simp only [writePairs]
    have h1 : cbor_write_textn s k = writeItem s (.etext k) := rfl
    rw [h1, writeItem_enc (.etext k) s (by omega)]
    dsimp only
    rw [writeItem_enc v ⟨s.out ++ enc (.etext k), s.n - (enc (.etext k)).length⟩
      (by dsimp only; omega)]
    dsimp only
    rw [writePairs_enc ps ⟨(s.out ++ enc (.etext k)) ++ enc v,
      s.n - (enc (.etext k)).length - (enc v).length⟩ (by dsimp only; omega)]
    simp only [Except.ok.injEq, WS.mk.injEq]
    constructor
    · simp [List.append_assoc]
    · omega

/-- **C4.** For a map body holding `pairs.length` key/value pairs exactly
as the encoder writes them (second conjunct: `writePairs`, which uses
`cbor_write_textn` for each text key and the `cbor_write_*` functions for
each value, emits precisely these bytes), if the key `k` occurs at
position `j` and at no earlier position, then `cbor_get_any` over that
body with the pair count returns the value of pair `j` — the first match
wins even when later duplicates of `k` exist, because the scan reads one
key item, compares it, and on a non-match skips exactly one value item
before the next pair. -/
theorem cbor_get_any_first_match
    (pairs : List (List Nat × EncItem)) (j : Nat) (k : List Nat)
    (hok : ∀ p ∈ pairs, pairOK p = true)
    (hj : j < pairs.length)
    (hkey : (pairs.get ⟨j, hj⟩).1 = k)
    (hfirst : ∀ i (hi : i < j), (pairs.get ⟨i, by omega⟩).1 ≠ k) :
    cbor_get_any (encPairs pairs) pairs.length k =
      .ok (toVal (pairs.get ⟨j, hj⟩).2) ∧
    ∀ s : WS, (encPairs pairs).length ≤ s.n →
      writePairs s pairs =
        .ok ⟨s.out ++ encPairs pairs, s.n - (encPairs pairs).length⟩ :=
  ⟨cbor_get_any_go_spec pairs j k hok hj hkey hfirst,
   fun s hs => writePairs_enc pairs s hs⟩

theorem cbor_get_any_first_match_witness :
    cbor_get_any
        (encPairs [([0x61], .euint 1), ([0x62], .euint 2), ([0x62], .euint 3)])
        (List.length [([0x61], EncItem.euint 1), ([0x62], .euint 2),
          ([0x62], .euint 3)]) [0x62] =
      .ok (toVal (([([0x61], EncItem.euint 1), ([0x62], .euint 2),
        ([0x62], .euint 3)].get ⟨1, by decide⟩)).2) ∧
    (∀ s : WS,
      (encPairs [([0x61], .euint 1), ([0x62], .euint 2),
        ([0x62], .euint 3)]).length ≤ s.n →
      writePairs s [([0x61], .euint 1), ([0x62], .euint 2), ([0x62], .euint 3)] =
        .ok ⟨s.out ++ encPairs [([0x61], .euint 1), ([0x62], .euint 2),
          ([0x62], .euint 3)],
          s.n - (encPairs [([0x61], .euint 1), ([0x62], .euint 2),
            ([0x62], .euint 3)]).length⟩) :=
  cbor_get_any_first_match
    [([0x61], .euint 1), ([0x62], .euint 2), ([0x62], .euint 3)] 1 [0x62]
    (by decide) (by decide) (by decide)
    (by
      intro i hi
      have h0 : i = 0 := by omega
      subst h0
      show ([([0x61], EncItem.euint 1), ([0x62], .euint 2),
        ([0x62], .euint 3)].get ⟨0, by decide⟩).1 ≠ [0x62]
      decide)
